import Mathlib

/-!
# Verification of the tokenkit tokenization engine

Shallow embedding of `ext/tokenkit/src` (Rust) in Lean 4.

Strings are modelled as `List Char` (Rust `char` sequences); the concrete
inputs used in the theorems below are ASCII, where Rust's byte offsets and
`char` offsets coincide and where `char::to_lowercase`, `char::is_whitespace`,
`char::is_alphabetic` agree with the corresponding ASCII-level Lean functions.
The external regex engine is a black-box dependency of the program; it is
modelled by an explicit `RegexEngine` record whose `compile` partial function
and span-producing matchers are parameters of the embedding.
-/

namespace Tokenkit

/-- A text / token: a sequence of characters (Rust `String` / `&str`). -/
abbrev Str := List Char

/-- A half-open span `[start, end)` into the original text
(`(usize, usize)` in `tokenizer/mod.rs`). -/
abbrev Span := Nat × Nat

/-- Rust `char::is_ascii_punctuation`: one of the ASCII ranges
`! .. /`, `: .. @`, `[ .. backquote`, `{ .. ~`. -/
def isAsciiPunctuation (c : Char) : Bool :=
  (0x21 ≤ c.toNat && c.toNat ≤ 0x2F) ||
  (0x3A ≤ c.toNat && c.toNat ≤ 0x40) ||
  (0x5B ≤ c.toNat && c.toNat ≤ 0x60) ||
  (0x7B ≤ c.toNat && c.toNat ≤ 0x7E)

/-- Rust `str::to_lowercase`, restricted to the ASCII fragment used by all
concrete inputs in this development (`Char.toLower` lowers `A..Z` only). -/
def lowerStr (s : Str) : Str := s.map Char.toLower

/-- The tokenizer strategies of `config.rs` / `lib.rs` (the closed sum type;
one case per segmentation algorithm, each carrying its parameters). -/
inductive TokenizerStrategy where
  | whitespace
  | unicode
  | pattern (regex : Str)
  | sentence
  | grapheme (extended : Bool)
  | keyword
  | edgeNgram (minGram maxGram : Nat)
  | ngram (minGram maxGram : Nat)
  | pathHierarchy (delimiter : Str)
  | urlEmail
  | charGroup (splitOnChars : Str)
  | letter
  | lowercase
  deriving DecidableEq, Repr

/-- `TokenizerConfig` of `config.rs`. -/
structure TokenizerConfig where
  strategy : TokenizerStrategy
  lowercase : Bool
  remove_punctuation : Bool
  preserve_patterns : List Str
  deriving DecidableEq, Repr

/-- `TokenizerError` of `error.rs` (the variants reachable from the core;
the regex-engine error message is not modelled, only the offending pattern). -/
inductive TokenizerError where
  | invalidConfiguration (msg : Str)
  | invalidRegex (pattern : Str)
  | invalidNgramConfig (min max : Nat)
  | emptyDelimiter (tokenizer : Str)
  | unknownStrategy (name : Str)
  deriving DecidableEq, Repr

/-- The black-box regex engine consumed by the program.  A compiled regex is
identified with its source string; `compile` returns `none` exactly on the
patterns that fail to compile.  `findAll` models `Regex::find_iter` (all
non-overlapping match spans, in order), `findFirst` models `Regex::find` and
`isMatch` models `Regex::is_match`. -/
structure RegexEngine where
  compile : Str → Option Str
  findAll : Str → Str → List Span
  findFirst : Str → Str → Option Span
  isMatch : Str → Str → Bool

/-! ## Post-processing pipeline (`tokenizer/mod.rs`) -/

/-- `post_process_with_preserved` of `tokenizer/mod.rs`: lowercase fold (if
configured), then punctuation stripping with `preserve_chars` exempt and
empty tokens dropped (if configured). -/
def post_process_with_preserved (tokens : List Str) (config : TokenizerConfig)
    (preserve_chars : Option Str) : List Str :=
  let tokens := if config.lowercase then tokens.map lowerStr else tokens
  if config.remove_punctuation then
    (tokens.map (fun t => t.filter (fun c =>
        match preserve_chars with
        | some preserved => preserved.contains c || !isAsciiPunctuation c
        | none => !isAsciiPunctuation c))).filter (fun s => s ≠ [])
  else tokens

/-- `post_process` of `tokenizer/mod.rs`. -/
def post_process (tokens : List Str) (config : TokenizerConfig) : List Str :=
  post_process_with_preserved tokens config none

/-- `post_process_in_place` of `tokenizer/mod.rs` (the in-place variant used
inside `apply_preserve_patterns_with_tokenizer`; `retain_mut` = filter each
token, drop the ones left empty). -/
def post_process_in_place (tokens : List Str) (config : TokenizerConfig) : List Str :=
  let tokens := if config.lowercase then tokens.map lowerStr else tokens
  if config.remove_punctuation then
    (tokens.map (fun t => t.filter (fun c => !isAsciiPunctuation c))).filter
      (fun t => t ≠ [])
  else tokens

/-! ## Whitespace splitting -/

/-- Rust `str::split_whitespace` on a character list: maximal runs of
non-whitespace characters, whitespace dropped. -/
def splitWhitespaceAux : List Char → Str → List Str
  | [], acc => if acc = [] then [] else [acc.reverse]
  | c :: rest, acc =>
    if c.isWhitespace then
      if acc = [] then splitWhitespaceAux rest []
      else acc.reverse :: splitWhitespaceAux rest []
    else splitWhitespaceAux rest (c :: acc)

/-- Rust `str::split_whitespace`. -/
def splitWhitespace (s : Str) : List Str := splitWhitespaceAux s []

/-- `tokenize_simple` of `tokenizer/mod.rs`: split on whitespace, drop
empties. -/
def tokenize_simple (text : Str) : List Str :=
  (splitWhitespace text).filter (fun s => !s.isEmpty)

/-! ## Stable sorting

`Vec::sort_by` (stable) and `Vec::sort_unstable_by` with the comparator
`a.0.cmp(&b.0).then_with(|| b.1.cmp(&a.1))` (start ascending, end
descending).  A stable insertion sort models `sort_by` exactly; for the
index-only span list the comparator's ties are syntactically equal pairs, so
every correct sort produces the same list and the same model also covers
`sort_unstable_by`. -/

/-- Insert `a` in front of the first element `b` with `le a b`. -/
def orderedInsert (le : α → α → Bool) (a : α) : List α → List α
  | [] => [a]
  | b :: l => if le a b then a :: b :: l else b :: orderedInsert le a l

/-- Stable insertion sort by a boolean total preorder. -/
def insertionSort (le : α → α → Bool) : List α → List α
  | [] => []
  | a :: l => orderedInsert le a (insertionSort le l)

/-- The span comparator of `merge_overlapping_spans(_optimized)`:
start ascending, end descending (`a ≤ b` form of
`a.0.cmp(&b.0).then_with(|| b.1.cmp(&a.1)) != Greater`). -/
def spanLE (a b : Span) : Bool :=
  a.1 < b.1 || (a.1 = b.1 && b.2 ≤ a.2)

/-- The same comparator on string-carrying spans (`(usize, usize, String)`);
the `String` component does not participate. -/
def spanLE3 (a b : Nat × Nat × Str) : Bool :=
  a.1 < b.1 || (a.1 = b.1 && b.2.1 ≤ a.2.1)

/-! ## Span merging (`tokenizer/mod.rs`) -/

/-- The left-to-right scan of `merge_overlapping_spans_optimized`: extend the
current span's end whenever the next span's start is strictly less than the
current end; otherwise close the current span and open a new one. -/
def sweepOpt (current : Span) : List Span → List Span
  | [] => [current]
  | s :: rest =>
    if s.1 < current.2 then
      if current.2 < s.2 then sweepOpt (current.1, s.2) rest
      else sweepOpt current rest
    else current :: sweepOpt s rest

/-- `merge_overlapping_spans_optimized` of `tokenizer/mod.rs`. -/
def merge_overlapping_spans_optimized (spans : List Span) : List Span :=
  match insertionSort spanLE spans with
  | [] => []
  | s :: rest => sweepOpt s rest

/-- The scan of the string-carrying `merge_overlapping_spans`.  Note the
difference with `sweepOpt`: on a strictly overlapping span with a larger end
the source does `current = span`, replacing the whole triple (start
included), not just the end. -/
def sweepStr (current : Nat × Nat × Str) : List (Nat × Nat × Str) → List (Nat × Nat × Str)
  | [] => [current]
  | s :: rest =>
    if s.1 < current.2.1 then
      if current.2.1 < s.2.1 then sweepStr s rest
      else sweepStr current rest
    else current :: sweepStr s rest

/-- `merge_overlapping_spans` of `tokenizer/mod.rs` (string-carrying). -/
def merge_overlapping_spans (spans : List (Nat × Nat × Str)) : List (Nat × Nat × Str) :=
  match insertionSort spanLE3 spans with
  | [] => []
  | s :: rest => sweepStr s rest

/-! ## Preserve-pattern overlay (`tokenizer/mod.rs`) -/

/-- `text[a..b]` for a character list. -/
def slice (text : Str) (a b : Nat) : Str := (text.drop a).take (b - a)

/-- The span walk of `apply_preserve_patterns_with_tokenizer`: gaps are
re-tokenized with `tokenizer_fn` and post-processed, each preserved span is
emitted verbatim, the trailing remainder is processed like a gap. -/
def overlayWalk (config : TokenizerConfig) (tokenizer_fn : Str → List Str)
    (text : Str) : Nat → List Span → List Str
  | pos, [] =>
    if pos < text.length then
      post_process_in_place (tokenizer_fn (text.drop pos)) config
    else []
  | pos, (s, e) :: rest =>
    (if pos < s then post_process_in_place (tokenizer_fn (slice text pos s)) config
     else []) ++
    slice text s e :: overlayWalk config tokenizer_fn text e rest

/-- `apply_preserve_patterns_with_tokenizer` of `tokenizer/mod.rs`,
with the per-pattern `find_iter` calls already folded into the regex
engine (`preserved_spans` is the concatenation of each pattern's match
spans over the original text). -/
def apply_preserve_patterns_with_tokenizer (re : RegexEngine) (tokens : List Str)
    (preserve_patterns : List Str) (original_text : Str)
    (config : TokenizerConfig) (tokenizer_fn : Str → List Str) : List Str :=
  if preserve_patterns = [] then tokens
  else
    let preserved_spans := preserve_patterns.flatMap (fun p => re.findAll p original_text)
    if preserved_spans = [] then tokens
    else
      let merged := merge_overlapping_spans_optimized preserved_spans
      overlayWalk config tokenizer_fn original_text 0 merged

/-- `apply_preserve_patterns` of `tokenizer/mod.rs`: the overlay with the
whitespace fallback splitter. -/
def apply_preserve_patterns (re : RegexEngine) (tokens : List Str)
    (preserve_patterns : List Str) (original_text : Str)
    (config : TokenizerConfig) : List Str :=
  apply_preserve_patterns_with_tokenizer re tokens preserve_patterns
    original_text config tokenize_simple

/-! ## Tokenizer construction (`tokenizer/base.rs`, per-variant `new`) -/

/-- `create_preserve_patterns` of `tokenizer/base.rs` (also inlined in
`whitespace.rs`, `unicode.rs`, ...): compile each preserve pattern,
silently dropping the ones that fail (`filter_map(|p| Regex::new(p).ok())`). -/
def create_preserve_patterns (re : RegexEngine) (config : TokenizerConfig) : List Str :=
  config.preserve_patterns.filterMap re.compile

/-! ## Whitespace strategy (`tokenizer/whitespace.rs`) -/

/-- `WhitespaceTokenizer::tokenize`. -/
def whitespaceTokenize (re : RegexEngine) (config : TokenizerConfig) (text : Str) : List Str :=
  let tokens := ((splitWhitespace text).filter (fun s => !s.isEmpty))
  let preserve_patterns := create_preserve_patterns re config
  if preserve_patterns ≠ [] then
    apply_preserve_patterns re tokens preserve_patterns text config
  else
    post_process tokens config

/-! ## Unicode strategy (`tokenizer/unicode.rs`)

`unicode_words` is the black-box Unicode word segmenter
(`unicode_segmentation::UnicodeSegmentation::unicode_words`); it is a
parameter `uwords` of the embedding.  `UnicodeTokenizer::tokenize` as
written calls a three-argument `apply_preserve_patterns(tokens, patterns,
text)`; the in-tree overlay is the four-argument
`apply_preserve_patterns(tokens, patterns, text, config)` of
`tokenizer/mod.rs`, which per spec §4.4 post-processes the gaps with the
active configuration — it is used here.  Afterwards `unicode.rs`
unconditionally applies `post_process` to the overlay's output. -/

/-- `UnicodeTokenizer::tokenize`. -/
def unicodeTokenize (re : RegexEngine) (uwords : Str → List Str)
    (config : TokenizerConfig) (text : Str) : List Str :=
  let preserve_patterns := create_preserve_patterns re config
  if preserve_patterns ≠ [] then
    let tokens := uwords text
    let tokens := apply_preserve_patterns re tokens preserve_patterns text config
    post_process tokens config
  else
    post_process (uwords text) config

/-! ## Letter strategy (`tokenizer/letter.rs`) -/

/-- The character scan of `LetterTokenizer::tokenize`: maximal runs of
alphabetic characters (`char::is_alphabetic`; ASCII fragment). -/
def letterSegments : List Char → Str → List Str
  | [], acc => if acc = [] then [] else [acc.reverse]
  | c :: rest, acc =>
    if c.isAlpha then letterSegments rest (c :: acc)
    else if acc = [] then letterSegments rest []
    else acc.reverse :: letterSegments rest []

/-- `LetterTokenizer::tokenize`. -/
def letterTokenize (re : RegexEngine) (config : TokenizerConfig) (text : Str) : List Str :=
  let tokens := letterSegments text []
  let preserve_patterns := create_preserve_patterns re config
  if preserve_patterns ≠ [] then
    apply_preserve_patterns re tokens preserve_patterns text config
  else
    post_process tokens config

/-! ## CharGroup strategy (`tokenizer/char_group.rs`) -/

/-- The character scan of `CharGroupTokenizer::tokenize`: split on any
character in `split_chars`; an empty set never splits. -/
def charGroupSegments (split_chars : Str) : List Char → Str → List Str
  | [], acc => if acc = [] then [] else [acc.reverse]
  | c :: rest, acc =>
    if split_chars.contains c then
      if acc = [] then charGroupSegments split_chars rest []
      else acc.reverse :: charGroupSegments split_chars rest []
    else charGroupSegments split_chars rest (c :: acc)

/-- `CharGroupTokenizer::tokenize`. -/
def charGroupTokenize (re : RegexEngine) (split_on_chars : Str)
    (config : TokenizerConfig) (text : Str) : List Str :=
  let tokens := charGroupSegments split_on_chars text []
  let preserve_patterns := create_preserve_patterns re config
  if preserve_patterns ≠ [] then
    apply_preserve_patterns re tokens preserve_patterns text config
  else
    post_process tokens config

/-! ## Keyword strategy (`tokenizer/keyword.rs`) -/

/-- Rust `str::trim`. -/
def trimStr (s : Str) : Str :=
  ((s.dropWhile Char.isWhitespace).reverse.dropWhile Char.isWhitespace).reverse

/-- `KeywordTokenizer::tokenize`. -/
def keywordTokenize (config : TokenizerConfig) (text : Str) : List Str :=
  let trimmed := trimStr text
  if trimmed = [] then []
  else post_process [trimmed] config

/-! ## N-gram strategies (`tokenizer/ngram.rs`, `tokenizer/edge_ngram.rs`) -/

/-- `NgramTokenizer::generate_ngrams`: for each `gram_size` in
`min_gram ..= min(max_gram, len)` (ascending), the substring of that length
at each start offset (ascending). -/
def generate_ngrams (min_gram max_gram : Nat) (word : Str) : List Str :=
  let text_len := word.length
  if text_len = 0 then []
  else
    let mx := Nat.min max_gram text_len
    (List.range' min_gram (mx + 1 - min_gram)).flatMap fun gram_size =>
      (List.range (text_len - gram_size + 1)).map fun start =>
        (word.drop start).take gram_size

/-- `EdgeNgramTokenizer::generate_edge_ngrams`: the prefixes of every length
in `min_gram ..= min(max_gram, len)`, anchored at the word start. -/
def generate_edge_ngrams (min_gram max_gram : Nat) (word : Str) : List Str :=
  let text_len := word.length
  if text_len = 0 then []
  else
    let mx := Nat.min max_gram text_len
    (List.range' min_gram (mx + 1 - min_gram)).map fun gram_size =>
      word.take gram_size

/-- The shared word loop of `NgramTokenizer::tokenize` and
`EdgeNgramTokenizer::tokenize`: per whitespace-delimited word, strip ASCII
punctuation if configured, skip words left empty, generate the grams;
lowercase the whole result at the end if configured. -/
def ngramWordLoop (gen : Str → List Str) (config : TokenizerConfig) (text : Str) : List Str :=
  let all := (splitWhitespace text).flatMap fun word =>
    let processed_word :=
      if config.remove_punctuation then word.filter (fun c => !isAsciiPunctuation c)
      else word
    if processed_word = [] then [] else gen processed_word
  if config.lowercase then all.map lowerStr else all

/-- `NgramTokenizer::tokenize` (with the constructor-clamped `min_gram`,
`max_gram` as parameters). -/
def ngramTokenize (min_gram max_gram : Nat) (config : TokenizerConfig) (text : Str) : List Str :=
  ngramWordLoop (generate_ngrams min_gram max_gram) config text

/-- `EdgeNgramTokenizer::tokenize`. -/
def edgeNgramTokenize (min_gram max_gram : Nat) (config : TokenizerConfig) (text : Str) : List Str :=
  ngramWordLoop (generate_edge_ngrams min_gram max_gram) config text

/-! ## Config validation (`lib.rs::validate_config`) -/

/-- The preserve-pattern loop of `validate_config`: report the first pattern
that fails to compile as `InvalidRegex`. -/
def validatePatterns (re : RegexEngine) : List Str → Except TokenizerError Unit
  | [] => .ok ()
  | p :: rest =>
    match re.compile p with
    | none => .error (.invalidRegex p)
    | some _ => validatePatterns re rest

/-- `validate_config` of `lib.rs`: per-strategy invariants first
(n-gram bounds, non-empty delimiter, compiling main regex), then every
preserve pattern must compile; the first violation is reported. -/
def validate_config (re : RegexEngine) (config : TokenizerConfig) :
    Except TokenizerError Unit := do
  match config.strategy with
  | .edgeNgram min_gram max_gram | .ngram min_gram max_gram =>
    if min_gram = 0 then
      throw (.invalidNgramConfig min_gram max_gram)
    else if max_gram < min_gram then
      throw (.invalidNgramConfig min_gram max_gram)
    else pure ()
  | .pathHierarchy delimiter =>
    if delimiter = [] then throw (.emptyDelimiter "PathHierarchy".data) else pure ()
  | .pattern regex =>
    match re.compile regex with
    | none => throw (.invalidRegex regex)
    | some _ => pure ()
  | _ => pure ()
  validatePatterns re config.preserve_patterns

/-! ## Strategy factory (`tokenizer/mod.rs::from_config`) -/

/-- The constructed tokenizer instance: the parameters each variant's `new`
stores (compiled preserve-pattern set; clamped n-gram bounds; delimiter;
split set; main pattern). -/
inductive TokenizerInst where
  | whitespace (config : TokenizerConfig) (patterns : List Str)
  | unicode (config : TokenizerConfig) (patterns : List Str)
  | pattern (config : TokenizerConfig) (regex : Str) (patterns : List Str)
  | sentence (config : TokenizerConfig) (patterns : List Str)
  | grapheme (config : TokenizerConfig) (extended : Bool)
  | keyword (config : TokenizerConfig)
  | edgeNgram (config : TokenizerConfig) (min_gram max_gram : Nat)
  | ngram (config : TokenizerConfig) (min_gram max_gram : Nat)
  | pathHierarchy (config : TokenizerConfig) (patterns : List Str) (delimiter : Str)
  | urlEmail (config : TokenizerConfig) (patterns : List Str)
  | charGroup (config : TokenizerConfig) (patterns : List Str) (split_on_chars : Str)
  | letter (config : TokenizerConfig) (patterns : List Str)
  | lowercase (config : TokenizerConfig) (patterns : List Str)
  deriving DecidableEq, Repr

/-- `from_config` of `tokenizer/mod.rs`: every arm is infallible except
`Pattern`, whose main regex must compile.  `EdgeNgramTokenizer::new` and
`NgramTokenizer::new` clamp their bounds (`min = max(min,1)`,
`max = max(max, clamped min)`). -/
def from_config (re : RegexEngine) (config : TokenizerConfig) :
    Except TokenizerError TokenizerInst :=
  let pats := create_preserve_patterns re config
  match config.strategy with
  | .whitespace => .ok (.whitespace config pats)
  | .unicode => .ok (.unicode config pats)
  | .pattern regex =>
    match re.compile regex with
    | none => .error (.invalidRegex regex)
    | some r => .ok (.pattern config r pats)
  | .sentence => .ok (.sentence config pats)
  | .grapheme extended => .ok (.grapheme config extended)
  | .keyword => .ok (.keyword config)
  | .edgeNgram min_gram max_gram =>
    .ok (.edgeNgram config (Nat.max min_gram 1) (Nat.max max_gram (Nat.max min_gram 1)))
  | .ngram min_gram max_gram =>
    .ok (.ngram config (Nat.max min_gram 1) (Nat.max max_gram (Nat.max min_gram 1)))
  | .pathHierarchy delimiter => .ok (.pathHierarchy config pats delimiter)
  | .urlEmail => .ok (.urlEmail config pats)
  | .charGroup split_on_chars => .ok (.charGroup config pats split_on_chars)
  | .letter => .ok (.letter config pats)
  | .lowercase => .ok (.lowercase config pats)

/-- The validated entry point (`lib.rs::tokenize_with_config`:
`parse_config_from_hash` runs `validate_config` before `from_config` builds
a tokenizer). -/
def validated_from_config (re : RegexEngine) (config : TokenizerConfig) :
    Except TokenizerError TokenizerInst := do
  validate_config re config
  from_config re config

/-! ## PathHierarchy strategy (`tokenizer/path_hierarchy.rs`) -/

/-- Rust `str::split` with a string pattern: pieces between consecutive
non-overlapping occurrences of `sep`, scanned left to right (used with the
non-empty `delimiter`).  `skip` counts separator characters still to be
consumed after a match (structural recursion in place of dropping
`sep.length` characters at once). -/
def splitOnStrAux (sep : Str) : List Char → Str → Nat → List Str
  | [], acc, _ => [acc.reverse]
  | c :: rest, acc, skip =>
    if 0 < skip then splitOnStrAux sep rest acc (skip - 1)
    else if sep.isPrefixOf (c :: rest) then
      acc.reverse :: splitOnStrAux sep rest [] (sep.length - 1)
    else splitOnStrAux sep rest (c :: acc) 0

/-- Rust `str::split` on a string delimiter. -/
def splitOnStr (sep s : Str) : List Str := splitOnStrAux sep s [] 0

/-- `Vec::<String>::join(sep)`. -/
def joinWith (sep : Str) : List Str → Str
  | [] => []
  | [s] => s
  | s :: rest => s ++ sep ++ joinWith sep rest

/-- The part loop of `PathHierarchyTokenizer::generate_hierarchy`: skip empty
parts; otherwise extend `current_path` by the delimiter (or a single leading
delimiter for the first segment of a delimiter-initial path) and the part,
emitting each intermediate path. -/
def genHierAux (delimiter : Str) (starts_with_delimiter : Bool) :
    List Str → Str → List Str
  | [], _ => []
  | part :: parts, current_path =>
    if part = [] then genHierAux delimiter starts_with_delimiter parts current_path
    else
      let current_path' :=
        (if current_path ≠ [] then current_path ++ delimiter
         else if starts_with_delimiter then delimiter else []) ++ part
      current_path' :: genHierAux delimiter starts_with_delimiter parts current_path'

/-- `PathHierarchyTokenizer::generate_hierarchy`. -/
def generate_hierarchy (delimiter path : Str) : List Str :=
  genHierAux delimiter (delimiter.isPrefixOf path) (splitOnStr delimiter path) []

/-- The per-part lowercase rebuild inside
`PathHierarchyTokenizer::apply_patterns_to_hierarchy` (the
`apply_lowercase` branch): walk the token's parts with their index,
re-inserting delimiters and lowercasing each part unless some preserve
pattern matches it. -/
def lowercaseHierParts (re : RegexEngine) (patterns : List Str) (delimiter : Str)
    (starts_with_delim : Bool) : Nat → List Str → Str → Str
  | _, [], lowercased => lowercased
  | i, part :: parts, lowercased =>
    if part = [] then
      let lowercased :=
        if i = 0 && starts_with_delim then lowercased ++ delimiter else lowercased
      lowercaseHierParts re patterns delimiter starts_with_delim (i + 1) parts lowercased
    else
      let lowercased :=
        if 0 < i || (i = 0 && starts_with_delim) then
          if lowercased ≠ [] && !(delimiter.isSuffixOf lowercased) then
            lowercased ++ delimiter
          else lowercased
        else lowercased
      let lowercased :=
        if patterns.any (fun p => re.isMatch p part) then lowercased ++ part
        else lowercased ++ lowerStr part
      lowercaseHierParts re patterns delimiter starts_with_delim (i + 1) parts lowercased

/-- `PathHierarchyTokenizer::apply_patterns_to_hierarchy`: generate the
hierarchy, find the tokens fully matched by a preserve pattern, and emit
each token that is preserved, extends a preserved token, or has no preserved
proper extension — lowercasing (per part, preserved parts exempt) only the
non-preserved ones when the configuration asks for it. -/
def apply_patterns_to_hierarchy (re : RegexEngine) (patterns : List Str)
    (delimiter : Str) (config : TokenizerConfig) (text : Str) : List Str :=
  if patterns = [] then generate_hierarchy delimiter text
  else
    let all_tokens := generate_hierarchy delimiter text
    let preserved_tokens := all_tokens.filter fun token =>
      patterns.any fun p =>
        match re.findFirst p token with
        | some (s, e) => slice token s e = token
        | none => false
    all_tokens.filterMap fun token =>
      if preserved_tokens.contains token then
        -- preserved: included, never lowercased
        some token
      else
        let extends_preserved := preserved_tokens.any fun preserved =>
          preserved.isPrefixOf token && token.length > preserved.length
        let should_include :=
          if extends_preserved then true
          else !(preserved_tokens.any fun preserved =>
            token.isPrefixOf preserved && preserved ≠ token)
        if should_include then
          if config.lowercase then
            some (lowercaseHierParts re patterns delimiter
              (delimiter.isPrefixOf token) 0 (splitOnStr delimiter token) [])
          else some token
        else none

/-- `PathHierarchyTokenizer::tokenize`: trim, then either the
preserve-pattern path (hierarchy overlay plus a delimiter-exempt
punctuation pass) or the plain path (hierarchy plus
`post_process_with_preserved` with the delimiter's characters exempt). -/
def pathHierarchyTokenize (re : RegexEngine) (delimiter : Str)
    (config : TokenizerConfig) (text : Str) : List Str :=
  let trimmed := trimStr text
  if trimmed = [] then []
  else
    let patterns := create_preserve_patterns re config
    if patterns ≠ [] then
      let tokens := apply_patterns_to_hierarchy re patterns delimiter config trimmed
      if config.remove_punctuation then
        (tokens.map fun token =>
          let parts := splitOnStr delimiter token
          let processed := parts.map fun part =>
            if part = [] then []
            else if patterns.any (fun p => re.isMatch p part) then part
            else part.filter fun c => !isAsciiPunctuation c || delimiter.contains c
          joinWith delimiter processed).filter fun s => s ≠ [] && s ≠ delimiter
      else tokens
    else
      post_process_with_preserved (generate_hierarchy delimiter trimmed) config
        (some delimiter)

/-! # Helper lemmas -/

theorem pairwise_of_all {R : α → α → Prop} (h : ∀ a b, R a b) :
    ∀ l : List α, l.Pairwise R
  | [] => .nil
  | _ :: l => .cons (fun b _ => h _ b) (pairwise_of_all h l)

/-- Pairwise on a `flatMap`: blocks internally pairwise, and pairwise across
blocks via a relation on the block indices. -/
theorem pairwise_flatMap {R : β → β → Prop} {S : α → α → Prop} {f : α → List β} :
    ∀ {l : List α}, l.Pairwise S → (∀ a ∈ l, (f a).Pairwise R) →
      (∀ a b, S a b → ∀ x ∈ f a, ∀ y ∈ f b, R x y) →
      (l.flatMap f).Pairwise R := by
  intro l
  induction l with
  | nil => intro _ _ _; exact .nil
  | cons a l ih =>
    intro hS hin hacross
    rw [List.flatMap_cons, List.pairwise_append]
    refine ⟨hin a (by simp), ih hS.of_cons (fun b hb => hin b (by simp [hb])) hacross, ?_⟩
    intro x hx y hy
    rcases List.mem_flatMap.1 hy with ⟨b, hb, hyb⟩
    exact hacross a b (List.rel_of_pairwise_cons hS hb) x hx y hyb

theorem mem_orderedInsert {le : α → α → Bool} (a x : α) :
    ∀ l : List α, x ∈ orderedInsert le a l ↔ x = a ∨ x ∈ l := by
  intro l
  induction l with
  | nil => simp [orderedInsert]
  | cons b l ih =>
    rw [orderedInsert]
    split
    · simp
    · simp only [List.mem_cons, ih]
      tauto

theorem orderedInsert_perm {le : α → α → Bool} (a : α) :
    ∀ l : List α, List.Perm (orderedInsert le a l) (a :: l) := by
  intro l
  induction l with
  | nil => rfl
  | cons b l ih =>
    rw [orderedInsert]
    split
    · rfl
    · exact ((ih.cons b).trans (List.Perm.swap a b l))

theorem insertionSort_perm {le : α → α → Bool} :
    ∀ l : List α, List.Perm (insertionSort le l) l := by
  intro l
  induction l with
  | nil => rfl
  | cons a l ih => exact (orderedInsert_perm a _).trans (ih.cons a)

theorem mem_insertionSort {le : α → α → Bool} (x : α) (l : List α) :
    x ∈ insertionSort le l ↔ x ∈ l :=
  (insertionSort_perm l).mem_iff

theorem orderedInsert_pairwise {le : α → α → Bool}
    (htotal : ∀ a b, le a b = true ∨ le b a = true)
    (htrans : ∀ a b c, le a b = true → le b c = true → le a c = true) (a : α) :
    ∀ l : List α, l.Pairwise (fun x y => le x y = true) →
      (orderedInsert le a l).Pairwise (fun x y => le x y = true) := by
  intro l
  induction l with
  | nil => intro _; exact List.pairwise_singleton _ a
  | cons b l ih =>
    intro hp
    rw [orderedInsert]
    split
    · rename_i hab
      refine hp.cons ?_
      intro y hy
      rcases List.mem_cons.1 hy with rfl | hyl
      · exact hab
      · exact htrans a b y hab (List.rel_of_pairwise_cons hp hyl)
    · rename_i hab
      have hba : le b a = true := (htotal a b).resolve_left hab
      refine List.Pairwise.cons ?_ (ih hp.of_cons)
      intro y hy
      rcases (mem_orderedInsert a y l).1 hy with rfl | hyl
      · exact hba
      · exact List.rel_of_pairwise_cons hp hyl

theorem insertionSort_pairwise {le : α → α → Bool}
    (htotal : ∀ a b, le a b = true ∨ le b a = true)
    (htrans : ∀ a b c, le a b = true → le b c = true → le a c = true) :
    ∀ l : List α, (insertionSort le l).Pairwise (fun x y => le x y = true) := by
  intro l
  induction l with
  | nil => exact .nil
  | cons a l ih => exact orderedInsert_pairwise htotal htrans a _ ih

theorem spanLE_total : ∀ a b : Span, spanLE a b = true ∨ spanLE b a = true := by
  intro a b
  simp only [spanLE, Bool.or_eq_true, Bool.and_eq_true, decide_eq_true_eq]
  omega

theorem spanLE_trans : ∀ a b c : Span,
    spanLE a b = true → spanLE b c = true → spanLE a c = true := by
  intro a b c
  simp only [spanLE, Bool.or_eq_true, Bool.and_eq_true, decide_eq_true_eq]
  omega

/-- The start components of a `spanLE`-sorted list are ascending. -/
theorem spanLE_start_le {a b : Span} (h : spanLE a b = true) : a.1 ≤ b.1 := by
  simp only [spanLE, Bool.or_eq_true, Bool.and_eq_true, decide_eq_true_eq] at h
  omega

/-- Forgetting the carried string of a `(usize, usize, String)` span. -/
def proj (t : Nat × Nat × Str) : Span := (t.1, t.2.1)

/-- Two spans strictly overlap: their open intersection is non-empty. -/
def overlaps (a b : Span) : Prop := Nat.max a.1 b.1 < Nat.min a.2 b.2

/-- `a` lies inside `b`. -/
def spanInside (a b : Span) : Prop := b.1 ≤ a.1 ∧ a.2 ≤ b.2

/-- One of the two spans contains the other. -/
def nested (a b : Span) : Prop := spanInside a b ∨ spanInside b a

instance (a b : Span) : Decidable (overlaps a b) := by unfold overlaps; infer_instance

instance (a b : Span) : Decidable (spanInside a b) := by unfold spanInside; infer_instance

instance (a b : Span) : Decidable (nested a b) := by unfold nested; infer_instance

theorem spanLE_end_ge {a b : Span} (h : spanLE a b = true) (heq : a.1 = b.1) :
    b.2 ≤ a.2 := by
  simp only [spanLE, Bool.or_eq_true, Bool.and_eq_true, decide_eq_true_eq] at h
  omega

theorem map_orderedInsert (f : α → β) (le : β → β → Bool) (a : α) :
    ∀ l : List α,
      (orderedInsert (fun x y => le (f x) (f y)) a l).map f =
        orderedInsert le (f a) (l.map f) := by
  intro l
  induction l with
  | nil => rfl
  | cons b l ih =>
    simp only [orderedInsert, List.map_cons]
    split
    · rfl
    · rw [List.map_cons, ih]

theorem map_insertionSort (f : α → β) (le : β → β → Bool) :
    ∀ l : List α,
      (insertionSort (fun x y => le (f x) (f y)) l).map f =
        insertionSort le (l.map f) := by
  intro l
  induction l with
  | nil => rfl
  | cons a l ih =>
    simp only [insertionSort, List.map_cons]
    rw [← ih, map_orderedInsert]

/-- Under the nestedness condition neither scan ever fires its
`span.1 > current.1` update, so the string-carrying scan and the index-only
scan produce the same `(start, end)` pairs. -/
theorem sweep_agree (spans3 : List (Nat × Nat × Str))
    (hnest : ∀ x ∈ spans3, ∀ y ∈ spans3,
      overlaps (proj x) (proj y) → nested (proj x) (proj y)) :
    ∀ (rest : List (Nat × Nat × Str)) (cur : Nat × Nat × Str),
      (cur :: rest).Pairwise (fun a b => spanLE3 a b = true) →
      (∀ x ∈ cur :: rest, x ∈ spans3) →
      (sweepStr cur rest).map proj = sweepOpt (proj cur) (rest.map proj) := by
  intro rest
  induction rest with
  | nil => intro cur _ _; rfl
  | cons s rest ih =>
    intro cur hsorted hmem
    have hcs : spanLE3 cur s = true :=
      List.rel_of_pairwise_cons hsorted (List.mem_cons_self s rest)
    rw [sweepStr, List.map_cons, sweepOpt]
    by_cases habs : s.1 < cur.2.1
    · rw [if_pos habs]
      have hnoupd : ¬ cur.2.1 < s.2.1 := by
        intro hupd
        have hstart : cur.1 ≤ s.1 := spanLE_start_le (a := proj cur) (b := proj s) hcs
        have hover : overlaps (proj cur) (proj s) := by
          unfold overlaps proj
          simp only
          rw [Nat.max_lt]
          exact ⟨Nat.lt_min.mpr ⟨by omega, by omega⟩, Nat.lt_min.mpr ⟨by omega, by omega⟩⟩
        rcases hnest cur (hmem cur (by simp)) s (hmem s (by simp)) hover with hin | hin
        · -- proj cur inside proj s: equal starts, so the sort put the
          -- larger end first
          have h1 : s.1 ≤ cur.1 := hin.1
          have heq : cur.1 = s.1 := Nat.le_antisymm hstart h1
          have := spanLE_end_ge (a := proj cur) (b := proj s) hcs heq
          simp only [proj] at this
          omega
        · have h2 := hin.2
          simp only [proj] at h2
          omega
      rw [if_neg hnoupd]
      show (sweepStr cur rest).map proj = _
      have : ¬ (proj cur).2 < (proj s).2 := hnoupd
      rw [if_pos (show (proj s).1 < (proj cur).2 from habs), if_neg this]
      exact ih cur (hsorted.sublist
        (List.cons_sublist_cons.mpr (List.sublist_cons_self s rest)))
        (fun x hx => hmem x (by
          rcases List.mem_cons.1 hx with rfl | hx
          · exact List.mem_cons_self x _
          · exact List.mem_cons_of_mem cur (List.mem_cons_of_mem s hx)))
    · rw [if_neg habs, if_neg (show ¬ (proj s).1 < (proj cur).2 from habs),
        List.map_cons]
      exact congrArg (proj cur :: ·)
        (ih s hsorted.of_cons (fun x hx => hmem x (List.mem_cons_of_mem cur hx)))

/-- The `(start, gram_size)` spans enumerated by
`NgramTokenizer::generate_ngrams`, in generation order. -/
def ngramSpans (min_gram max_gram len : Nat) : List (Nat × Nat) :=
  if len = 0 then []
  else
    (List.range' min_gram (Nat.min max_gram len + 1 - min_gram)).flatMap fun gram_size =>
      (List.range (len - gram_size + 1)).map fun start => (start, gram_size)

theorem generate_ngrams_eq_spans (mn mx : Nat) (word : Str) :
    generate_ngrams mn mx word =
      (ngramSpans mn mx word.length).map fun p => (word.drop p.1).take p.2 := by
  unfold generate_ngrams ngramSpans
  by_cases h : word.length = 0
  · simp [h]
  · simp only [if_neg h, List.map_flatMap, List.map_map, Function.comp]
    rfl

theorem ngramSpans_mem (mn mx len : Nat) (hmn : 1 ≤ mn) (s L : Nat) :
    (s, L) ∈ ngramSpans mn mx len ↔ mn ≤ L ∧ L ≤ Nat.min mx len ∧ s + L ≤ len := by
  unfold ngramSpans
  by_cases h : len = 0
  · subst h
    simp only [if_pos rfl]
    simp
    omega
  · rw [if_neg h]
    simp only [List.mem_flatMap, List.mem_map, List.mem_range', List.mem_range,
      Prod.mk.injEq]
    constructor
    · rintro ⟨L', ⟨i, hi, rfl⟩, s', hs', rfl, rfl⟩
      have hdlen : Nat.min mx len ≤ len := Nat.min_le_right mx len
      generalize Nat.min mx len = d at hi hdlen ⊢
      omega
    · rintro ⟨h1, h2, h3⟩
      exact ⟨L, ⟨L - mn, by omega, by omega⟩, s, by omega, rfl, rfl⟩

theorem ngramSpans_len_ascending (mn mx len : Nat) :
    (ngramSpans mn mx len).Pairwise fun a b => a.2 ≤ b.2 := by
  unfold ngramSpans
  by_cases h : len = 0
  · simp [h]
  · rw [if_neg h]
    refine pairwise_flatMap (S := (· < ·)) (List.pairwise_lt_range' _ _) ?_ ?_
    · intro L _
      exact (List.pairwise_map).2 (pairwise_of_all (fun a b => le_refl L) _)
    · intro a b hab x hx y hy
      rcases List.mem_map.1 hx with ⟨_, _, rfl⟩
      rcases List.mem_map.1 hy with ⟨_, _, rfl⟩
      exact Nat.le_of_lt hab

theorem ngramSpans_start_ascending (mn mx len : Nat) :
    (ngramSpans mn mx len).Pairwise fun a b => a.2 = b.2 → a.1 ≤ b.1 := by
  unfold ngramSpans
  by_cases h : len = 0
  · simp [h]
  · rw [if_neg h]
    refine pairwise_flatMap (S := (· < ·)) (List.pairwise_lt_range' _ _) ?_ ?_
    · intro L _
      refine (List.pairwise_map).2 ?_
      refine (List.pairwise_lt_range (len - L + 1)).imp ?_
      intro a b hab _
      exact Nat.le_of_lt hab
    · intro a b hab x hx y hy
      rcases List.mem_map.1 hx with ⟨_, _, rfl⟩
      rcases List.mem_map.1 hy with ⟨_, _, rfl⟩
      intro hEq
      exact absurd hEq (Nat.ne_of_lt hab)

/-! # Theorems -/

/-- C5: For every EdgeNgram or Ngram configuration with `min_gram = 0` or
`min_gram > max_gram`, `validate_config` rejects the configuration with
`InvalidNgramConfig(min,max)` and the validated entry point
(`validate` then `from_config`) produces no tokenizer, returning the same
error — even though `from_config` alone would succeed, the variant
constructors clamping the bounds to `min' = max(min,1)`,
`max' = max(max, min')`. -/
theorem claim5_ngram_validation_rejects (re : RegexEngine) (cfg : TokenizerConfig)
    (mn mx : Nat) (hbad : mn = 0 ∨ mx < mn)
    (hstrat : cfg.strategy = .edgeNgram mn mx ∨ cfg.strategy = .ngram mn mx) :
    validate_config re cfg = .error (.invalidNgramConfig mn mx) ∧
    validated_from_config re cfg = .error (.invalidNgramConfig mn mx) ∧
    (cfg.strategy = .edgeNgram mn mx →
      from_config re cfg = .ok (.edgeNgram cfg (Nat.max mn 1) (Nat.max mx (Nat.max mn 1)))) ∧
    (cfg.strategy = .ngram mn mx →
      from_config re cfg = .ok (.ngram cfg (Nat.max mn 1) (Nat.max mx (Nat.max mn 1)))) := by
  have hval : validate_config re cfg = .error (.invalidNgramConfig mn mx) := by
    rcases hstrat with h | h <;>
      · rw [validate_config, h]
        rcases hbad with h0 | hlt
        · subst h0; simp only [if_pos rfl]; rfl
        · have h0 : mn ≠ 0 := by omega
          simp only [if_neg h0, if_pos hlt]; rfl
  refine ⟨hval, ?_, ?_, ?_⟩
  · rw [validated_from_config, hval]; rfl
  · intro h; rw [from_config, h]
  · intro h; rw [from_config, h]

/-- Witness for C5 at the spec's example `EdgeNgram(min=0, max=5)`. -/
theorem claim5_witness :
    validate_config ⟨some, fun _ _ => [], fun _ _ => none, fun _ _ => false⟩
      ⟨.edgeNgram 0 5, true, false, []⟩ = .error (.invalidNgramConfig 0 5) :=
  (claim5_ngram_validation_rejects _ _ 0 5 (Or.inl rfl) (Or.inl rfl)).1

/-! ### Group instrumentation of the optimized sweep (for C3)

`sweepGroups` runs the same scan as `sweepOpt` but records, for each output
span, the sorted input spans that were folded into it. -/

/-- The running maximum of the span ends of a group (the value the scan's
`current.1` end tracks). -/
def maxEnds (g : List Span) : Nat := g.foldl (fun m sp => Nat.max m sp.2) 0

/-- The merged span of a group: the first (minimal) start and the maximal
end. -/
def collapse (g : List Span) : Span := ((g.headD (0, 0)).1, maxEnds g)

/-- The scan of `merge_overlapping_spans_optimized`, instrumented to return
the groups of input spans folded into each output span (group members
accumulated in reverse). -/
def sweepGroups (cur : Span) (g : List Span) : List Span → List (List Span)
  | [] => [g.reverse]
  | s :: rest =>
    if s.1 < cur.2 then
      sweepGroups (if cur.2 < s.2 then (cur.1, s.2) else cur) (s :: g) rest
    else g.reverse :: sweepGroups s [s] rest

/-- The groups of sorted input spans merged by
`merge_overlapping_spans_optimized`. -/
def mergeGroups (spans : List Span) : List (List Span) :=
  match insertionSort spanLE spans with
  | [] => []
  | s :: rest => sweepGroups s [s] rest

/-- Every non-first member of the list strictly overlaps (its start is
strictly below the end of) some earlier member — the "connected by a chain
of strictly overlapping spans" condition, in the sorted-scan form of the
algorithm. -/
def Chained (l : List Span) : Prop :=
  ∀ pre y post, l = pre ++ y :: post → pre = [] ∨ ∃ x ∈ pre, y.1 < x.2

theorem maxEnds_append_single (l : List Span) (s : Span) :
    maxEnds (l ++ [s]) = Nat.max (maxEnds l) s.2 := by
  unfold maxEnds
  rw [List.foldl_append]
  rfl

theorem foldl_max_le_init (f : Span → Nat) :
    ∀ (g : List Span) (init : Nat),
      init ≤ g.foldl (fun m sp => Nat.max m (f sp)) init := by
  intro g
  induction g with
  | nil => intro init; exact Nat.le_refl init
  | cons a g ih =>
    intro init
    exact Nat.le_trans (Nat.le_max_left init (f a)) (ih (Nat.max init (f a)))

theorem le_foldl_max (f : Span → Nat) :
    ∀ (g : List Span) (init : Nat) (x : Span), x ∈ g →
      f x ≤ g.foldl (fun m sp => Nat.max m (f sp)) init := by
  intro g
  induction g with
  | nil => intro _ x hx; cases hx
  | cons a g ih =>
    intro init x hx
    rcases List.mem_cons.1 hx with rfl | hx
    · exact Nat.le_trans (Nat.le_max_right init (f x)) (foldl_max_le_init f g _)
    · exact ih _ x hx

theorem le_maxEnds (g : List Span) (x : Span) (hx : x ∈ g) : x.2 ≤ maxEnds g :=
  le_foldl_max (fun sp => sp.2) g 0 x hx

theorem foldl_max_attained (f : Span → Nat) :
    ∀ (g : List Span) (init : Nat),
      g.foldl (fun m sp => Nat.max m (f sp)) init = init ∨
      ∃ x ∈ g, f x = g.foldl (fun m sp => Nat.max m (f sp)) init := by
  intro g
  induction g with
  | nil => intro init; exact Or.inl rfl
  | cons a g ih =>
    intro init
    rcases ih (Nat.max init (f a)) with h | ⟨x, hx, hfx⟩
    · rw [List.foldl_cons, h]
      rcases Nat.le_total init (f a) with hle | hle
      · exact Or.inr ⟨a, by simp, (Nat.max_eq_right hle).symm⟩
      · exact Or.inl (Nat.max_eq_left hle)
    · exact Or.inr ⟨x, by simp [hx], by rw [List.foldl_cons]; exact hfx⟩

theorem maxEnds_attained (g : List Span) :
    maxEnds g = 0 ∨ ∃ x ∈ g, x.2 = maxEnds g :=
  foldl_max_attained (fun sp => sp.2) g 0

theorem headD_append_left (l l' : List Span) (d : Span) (h : l ≠ []) :
    (l ++ l').headD d = l.headD d := by
  cases l with
  | nil => exact absurd rfl h
  | cons a t => rfl

theorem maxEnds_singleton (s : Span) : maxEnds [s] = s.2 := by
  unfold maxEnds
  simp [Nat.zero_max]

theorem collapse_eq_cur {cur : Span} {g : List Span}
    (h1 : cur.1 = ((g.reverse).headD (0, 0)).1) (h2 : cur.2 = maxEnds g.reverse) :
    collapse g.reverse = cur := by
  unfold collapse
  exact Prod.ext h1.symm h2.symm

/-- The optimized scan computes exactly the collapses of its groups. -/
theorem sweepOpt_eq_groups :
    ∀ (rest : List Span) (cur : Span) (g : List Span),
      cur.1 = ((g.reverse).headD (0, 0)).1 → cur.2 = maxEnds g.reverse →
      g ≠ [] →
      sweepOpt cur rest = (sweepGroups cur g rest).map collapse := by
  intro rest
  induction rest with
  | nil =>
    intro cur g h1 h2 hg
    show [cur] = [collapse g.reverse]
    rw [collapse_eq_cur h1 h2]
  | cons s rest ih =>
    intro cur g h1 h2 hg
    rw [sweepOpt, sweepGroups]
    have hgrev : g.reverse ≠ [] := fun h => hg (List.reverse_eq_nil_iff.1 h)
    by_cases habs : s.1 < cur.2
    · rw [if_pos habs, if_pos habs]
      by_cases hupd : cur.2 < s.2
      · rw [if_pos hupd, if_pos hupd]
        refine ih (cur.1, s.2) (s :: g) ?_ ?_ (by simp)
        · show cur.1 = ((s :: g).reverse.headD (0, 0)).1
          rw [List.reverse_cons, headD_append_left _ _ _ hgrev]
          exact h1
        · show s.2 = maxEnds (s :: g).reverse
          rw [List.reverse_cons, maxEnds_append_single, ← h2]
          exact (Nat.max_eq_right (Nat.le_of_lt hupd)).symm
      · rw [if_neg hupd, if_neg hupd]
        refine ih cur (s :: g) ?_ ?_ (by simp)
        · rw [List.reverse_cons, headD_append_left _ _ _ hgrev]
          exact h1
        · rw [List.reverse_cons, maxEnds_append_single, ← h2]
          exact (Nat.max_eq_left (Nat.le_of_not_lt hupd)).symm
    · rw [if_neg habs, if_neg habs, List.map_cons, collapse_eq_cur h1 h2]
      refine congrArg (cur :: ·) (ih s [s] rfl (maxEnds_singleton s).symm (by simp))

/-- The groups partition the scanned list. -/
theorem sweepGroups_flatten :
    ∀ (rest : List Span) (cur : Span) (g : List Span),
      (sweepGroups cur g rest).flatten = g.reverse ++ rest := by
  intro rest
  induction rest with
  | nil =>
    intro cur g
    show g.reverse ++ [].flatten = g.reverse ++ []
    rfl
  | cons s rest ih =>
    intro cur g
    rw [sweepGroups]
    by_cases habs : s.1 < cur.2
    · rw [if_pos habs, ih, List.reverse_cons, List.append_assoc]
      rfl
    · rw [if_neg habs, List.flatten_cons, ih]
      rfl

theorem sweepGroups_ne_nil :
    ∀ (rest : List Span) (cur : Span) (g : List Span), g ≠ [] →
      ∀ h ∈ sweepGroups cur g rest, h ≠ [] := by
  intro rest
  induction rest with
  | nil =>
    intro cur g hg h hh
    rw [sweepGroups] at hh
    rcases List.mem_singleton.1 hh with rfl
    exact fun hrev => hg (List.reverse_eq_nil_iff.1 hrev)
  | cons s rest ih =>
    intro cur g hg h hh
    rw [sweepGroups] at hh
    by_cases habs : s.1 < cur.2
    · rw [if_pos habs] at hh
      exact ih _ (s :: g) (by simp) h hh
    · rw [if_neg habs] at hh
      rcases List.mem_cons.1 hh with rfl | hh
      · exact fun hrev => hg (List.reverse_eq_nil_iff.1 hrev)
      · exact ih _ [s] (by simp) h hh

theorem chained_nil : Chained [] := by
  intro pre y post heq
  exact absurd heq.symm (List.append_ne_nil_of_right_ne_nil pre (by simp))

theorem chained_singleton (s : Span) : Chained [s] := by
  intro pre y post heq
  cases pre with
  | nil => exact Or.inl rfl
  | cons a t =>
    exfalso
    have := congrArg List.length heq
    simp at this

/-- Decomposing a list of the form `l ++ [s]` around a distinguished
element. -/
theorem append_singleton_decomp {pre : List Span} {y : Span} {post l : List Span}
    {s : Span} (heq : pre ++ y :: post = l ++ [s]) :
    (pre = l ∧ y = s ∧ post = []) ∨
    (∃ post', post = post' ++ [s] ∧ l = pre ++ y :: post') := by
  rcases List.eq_nil_or_concat post with rfl | ⟨post', z, rfl⟩
  · left
    have h := List.append_inj' heq (by rfl)
    refine ⟨h.1, List.cons.injEq y [] s [] ▸ h.2 |>.1, rfl⟩
  · right
    rw [List.concat_eq_append, show pre ++ y :: (post' ++ [z]) = (pre ++ y :: post') ++ [z] by simp] at heq
    have h := List.append_inj' heq (by rfl)
    have hz : z = s := (List.cons.injEq z [] s [] ▸ h.2).1
    exact ⟨post', by rw [List.concat_eq_append, hz], h.1.symm⟩

/-- Appending a span that strictly overlaps some existing member preserves
the chain condition. -/
theorem chained_append {l : List Span} {s : Span} (h : Chained l)
    (hs : l = [] ∨ ∃ x ∈ l, s.1 < x.2) : Chained (l ++ [s]) := by
  intro pre y post heq
  rcases append_singleton_decomp heq.symm with ⟨rfl, rfl, rfl⟩ | ⟨post', _, hl⟩
  · rcases hs with rfl | ⟨x, hx, hxs⟩
    · exact Or.inl rfl
    · exact Or.inr ⟨x, hx, hxs⟩
  · exact h pre y post' hl

/-- Every group the instrumented scan emits satisfies the chain condition. -/
theorem sweepGroups_chained :
    ∀ (rest : List Span) (cur : Span) (g : List Span),
      Chained g.reverse → cur.2 = maxEnds g.reverse →
      ∀ h ∈ sweepGroups cur g rest, Chained h := by
  intro rest
  induction rest with
  | nil =>
    intro cur g hch _ h hh
    rcases List.mem_singleton.1 hh with rfl
    exact hch
  | cons s rest ih =>
    intro cur g hch h2 h hh
    rw [sweepGroups] at hh
    by_cases habs : s.1 < cur.2
    · rw [if_pos habs] at hh
      have hch' : Chained (s :: g).reverse := by
        rw [List.reverse_cons]
        refine chained_append hch ?_
        right
        have hne : maxEnds g.reverse ≠ 0 := by omega
        rcases maxEnds_attained g.reverse with h0 | ⟨x, hx, hxe⟩
        · exact absurd h0 hne
        · exact ⟨x, hx, by omega⟩
      have h2' : (if cur.2 < s.2 then (cur.1, s.2) else cur).2 =
          maxEnds (s :: g).reverse := by
        rw [List.reverse_cons, maxEnds_append_single, ← h2]
        by_cases hupd : cur.2 < s.2
        · rw [if_pos hupd]
          exact (Nat.max_eq_right (Nat.le_of_lt hupd)).symm
        · rw [if_neg hupd]
          exact (Nat.max_eq_left (Nat.le_of_not_lt hupd)).symm
      exact ih _ (s :: g) hch' h2' h hh
    · rw [if_neg habs] at hh
      rcases List.mem_cons.1 hh with rfl | hh
      · exact hch
      · exact ih s [s] (chained_singleton s) (maxEnds_singleton s).symm h hh

theorem maxEnds_update (cur s : Span) (g : List Span)
    (h2 : cur.2 = maxEnds g.reverse) :
    (if cur.2 < s.2 then (cur.1, s.2) else cur).2 = maxEnds (s :: g).reverse := by
  rw [List.reverse_cons, maxEnds_append_single, ← h2]
  by_cases hupd : cur.2 < s.2
  · rw [if_pos hupd]
    exact (Nat.max_eq_right (Nat.le_of_lt hupd)).symm
  · rw [if_neg hupd]
    exact (Nat.max_eq_left (Nat.le_of_not_lt hupd)).symm

theorem sublist_flatten_of_mem :
    ∀ (gs : List (List Span)) (g : List Span), g ∈ gs → g.Sublist gs.flatten := by
  intro gs
  induction gs with
  | nil => intro g hg; cases hg
  | cons h t ih =>
    intro g hg
    rw [List.flatten_cons]
    rcases List.mem_cons.1 hg with rfl | hg
    · exact List.sublist_append_left g t.flatten
    · exact (ih g hg).trans (List.sublist_append_right h t.flatten)

/-- Members of distinct groups never overlap: any member of an earlier
group ends at or before the start of any member of a later group. -/
theorem sweepGroups_separated :
    ∀ (rest : List Span) (cur : Span) (g : List Span),
      rest.Pairwise (fun a b => a.1 ≤ b.1) →
      cur.2 = maxEnds g.reverse →
      (sweepGroups cur g rest).Pairwise
        (fun g₁ g₂ => ∀ x ∈ g₁, ∀ y ∈ g₂, x.2 ≤ y.1) := by
  intro rest
  induction rest with
  | nil => intro cur g _ _; exact List.pairwise_singleton _ _
  | cons s rest ih =>
    intro cur g hsort h2
    rw [sweepGroups]
    by_cases habs : s.1 < cur.2
    · rw [if_pos habs]
      exact ih _ (s :: g) hsort.of_cons (maxEnds_update cur s g h2)
    · rw [if_neg habs]
      refine List.Pairwise.cons ?_ (ih s [s] hsort.of_cons (maxEnds_singleton s).symm)
      intro g₂ hg₂ x hx y hy
      have hy' : y ∈ s :: rest := by
        have hsub := sublist_flatten_of_mem _ g₂ hg₂
        have hmem : y ∈ (sweepGroups s [s] rest).flatten := hsub.mem hy
        rw [sweepGroups_flatten] at hmem
        simpa using hmem
      have hx2 : x.2 ≤ cur.2 := h2 ▸ le_maxEnds g.reverse x hx
      have hsy : s.1 ≤ y.1 := by
        rcases List.mem_cons.1 hy' with rfl | hy'
        · exact Nat.le_refl _
        · exact List.rel_of_pairwise_cons hsort hy'
      omega

theorem merge_opt_eq_groups (spans : List Span) :
    merge_overlapping_spans_optimized spans = (mergeGroups spans).map collapse := by
  unfold merge_overlapping_spans_optimized mergeGroups
  cases h : insertionSort spanLE spans with
  | nil => rfl
  | cons s rest =>
    exact sweepOpt_eq_groups rest s [s] rfl (maxEnds_singleton s).symm (by simp)

theorem mergeGroups_flatten_sorted (spans : List Span) :
    (mergeGroups spans).flatten = insertionSort spanLE spans := by
  unfold mergeGroups
  cases h : insertionSort spanLE spans with
  | nil => rfl
  | cons s rest =>
    rw [sweepGroups_flatten]
    rfl

theorem mergeGroups_ne_nil (spans : List Span) :
    ∀ g ∈ mergeGroups spans, g ≠ [] := by
  unfold mergeGroups
  cases h : insertionSort spanLE spans with
  | nil => intro g hg; cases hg
  | cons s rest => exact sweepGroups_ne_nil rest s [s] (by simp)

theorem headD_mem {g : List Span} (hg : g ≠ []) : g.headD (0, 0) ∈ g := by
  cases g with
  | nil => exact absurd rfl hg
  | cons a t => exact List.mem_cons_self a t

theorem headD_start_le {g : List Span} (hp : g.Pairwise (fun a b => a.1 ≤ b.1))
    {x : Span} (hx : x ∈ g) : (g.headD (0, 0)).1 ≤ x.1 := by
  cases g with
  | nil => cases hx
  | cons a t =>
    rcases List.mem_cons.1 hx with rfl | hx
    · exact Nat.le_refl _
    · exact List.rel_of_pairwise_cons hp hx

/-- C3: the span-merge step.  `mergeGroups` partitions the sorted input
spans (a permutation of the input) into non-empty contiguous groups;
`merge_overlapping_spans_optimized` returns exactly one span per group —
the group's first start paired with its maximal end, covering every member.
Within a group every non-first member strictly overlaps an earlier member
(`Chained`, the "chain of strictly overlapping spans" of the claim, with
strict overlap read as the algorithm's `next.start < current.end` after
sorting by start ascending/end descending); across two distinct groups
every pair of members satisfies `x.end ≤ y.start` — no strict overlap, so
two input spans are merged into the same output span exactly when they are
chain-connected.  The output is ordered and pairwise disjoint
(`a.end ≤ b.start`), merely touching spans staying separate:
`[(0,2),(2,4)]` is returned unchanged, while the overlapping
`[(0,7),(5,10)]` collapses to the union `[(0,10)]`. -/
theorem claim3_merge_overlapping_spans_spec (spans : List Span) :
    merge_overlapping_spans_optimized spans = (mergeGroups spans).map collapse ∧
    (mergeGroups spans).flatten = insertionSort spanLE spans ∧
    List.Perm (insertionSort spanLE spans) spans ∧
    (∀ g ∈ mergeGroups spans, g ≠ []) ∧
    (∀ g ∈ mergeGroups spans, Chained g) ∧
    (mergeGroups spans).Pairwise (fun g₁ g₂ => ∀ x ∈ g₁, ∀ y ∈ g₂, x.2 ≤ y.1) ∧
    (∀ g ∈ mergeGroups spans, ∀ x ∈ g,
      (collapse g).1 ≤ x.1 ∧ x.2 ≤ (collapse g).2) ∧
    (merge_overlapping_spans_optimized spans).Pairwise (fun a b => a.2 ≤ b.1) ∧
    merge_overlapping_spans_optimized [(0, 7), (5, 10)] = [(0, 10)] ∧
    merge_overlapping_spans_optimized [(0, 2), (2, 4)] = [(0, 2), (2, 4)] := by
  have hsortedLE : (insertionSort spanLE spans).Pairwise
      (fun a b => spanLE a b = true) :=
    insertionSort_pairwise spanLE_total spanLE_trans spans
  have hsortedStart : (insertionSort spanLE spans).Pairwise
      (fun a b => a.1 ≤ b.1) :=
    hsortedLE.imp (fun h => spanLE_start_le h)
  have heq := merge_opt_eq_groups spans
  have hflat := mergeGroups_flatten_sorted spans
  have hne := mergeGroups_ne_nil spans
  have hchain : ∀ g ∈ mergeGroups spans, Chained g := by
    unfold mergeGroups
    cases h : insertionSort spanLE spans with
    | nil => intro g hg; cases hg
    | cons s rest =>
      exact sweepGroups_chained rest s [s] (chained_singleton s)
        (maxEnds_singleton s).symm
  have hsep : (mergeGroups spans).Pairwise
      (fun g₁ g₂ => ∀ x ∈ g₁, ∀ y ∈ g₂, x.2 ≤ y.1) := by
    unfold mergeGroups
    cases h : insertionSort spanLE spans with
    | nil => exact .nil
    | cons s rest =>
      refine sweepGroups_separated rest s [s] ?_ (maxEnds_singleton s).symm
      have := hsortedStart
      rw [h] at this
      exact this.of_cons
  have hgroupsSorted : ∀ g ∈ mergeGroups spans,
      g.Pairwise (fun a b => a.1 ≤ b.1) := by
    intro g hg
    refine List.Pairwise.sublist ?_ hsortedStart
    rw [← hflat]
    exact sublist_flatten_of_mem _ g hg
  have hcover : ∀ g ∈ mergeGroups spans, ∀ x ∈ g,
      (collapse g).1 ≤ x.1 ∧ x.2 ≤ (collapse g).2 := by
    intro g hg x hx
    exact ⟨headD_start_le (hgroupsSorted g hg) hx, le_maxEnds g x hx⟩
  have hdisj : (merge_overlapping_spans_optimized spans).Pairwise
      (fun a b => a.2 ≤ b.1) := by
    rw [heq]
    rw [List.pairwise_map]
    refine hsep.imp_of_mem ?_
    intro g₁ g₂ hg₁ hg₂ hsep12
    show (collapse g₁).2 ≤ (collapse g₂).1
    have hg₂ne : g₂ ≠ [] := hne g₂ hg₂
    have hhead : g₂.headD (0, 0) ∈ g₂ := headD_mem hg₂ne
    rcases maxEnds_attained g₁ with h0 | ⟨x, hx, hxe⟩
    · show maxEnds g₁ ≤ _
      omega
    · show maxEnds g₁ ≤ (g₂.headD (0, 0)).1
      rw [← hxe]
      exact hsep12 x hx _ hhead
  exact ⟨heq, hflat, insertionSort_perm spans, hne, hchain, hsep, hcover, hdisj,
    rfl, rfl⟩

/-- Witness for C3 at the spec's overlapping-ranges example. -/
theorem claim3_witness :
    merge_overlapping_spans_optimized [(0, 7), (5, 10)] =
      (mergeGroups [(0, 7), (5, 10)]).map collapse :=
  (claim3_merge_overlapping_spans_spec [(0, 7), (5, 10)]).1

theorem spanLE3_total : ∀ a b : Nat × Nat × Str,
    spanLE3 a b = true ∨ spanLE3 b a = true :=
  fun a b => spanLE_total (proj a) (proj b)

theorem spanLE3_trans : ∀ a b c : Nat × Nat × Str,
    spanLE3 a b = true → spanLE3 b c = true → spanLE3 a c = true :=
  fun a b c => spanLE_trans (proj a) (proj b) (proj c)

/-- C6 counterexample: on the two strictly overlapping spans `(0,5)` and
`(2,8)` (neither containing the other) the string-carrying
`merge_overlapping_spans` returns `[(2,8)]` — its `current = span`
assignment discards the earlier start — while
`merge_overlapping_spans_optimized` returns `[(0,8)]`, so the two
implementations are not equivalent. -/
theorem claim6_counterexample :
    (merge_overlapping_spans [(0, 5, "a".data), (2, 8, "b".data)]).map proj
        = [(2, 8)] ∧
    merge_overlapping_spans_optimized [(0, 5), (2, 8)] = [(0, 8)] ∧
    ([((2 : Nat), (8 : Nat))] : List Span) ≠ [(0, 8)] :=
  ⟨rfl, rfl, by decide⟩

/-- C6 (amended): the two span-merge implementations agree — the
`(start,end)` pairs of the string-carrying `merge_overlapping_spans` equal
the output of `merge_overlapping_spans_optimized` on the same inputs —
on every span list in which any two strictly overlapping spans are nested
(one contains the other); on a span list where a strictly overlapping span
extends beyond the current one they differ, the string-carrying version
losing the merged span's start. -/
theorem claim6_merge_equivalence_on_nested (spans3 : List (Nat × Nat × Str))
    (hnest : ∀ x ∈ spans3, ∀ y ∈ spans3,
      overlaps (proj x) (proj y) → nested (proj x) (proj y)) :
    (merge_overlapping_spans spans3).map proj =
      merge_overlapping_spans_optimized (spans3.map proj) := by
  unfold merge_overlapping_spans merge_overlapping_spans_optimized
  have hmap : insertionSort spanLE (spans3.map proj) =
      (insertionSort spanLE3 spans3).map proj :=
    (map_insertionSort proj spanLE spans3).symm
  rw [hmap]
  cases h : insertionSort spanLE3 spans3 with
  | nil => rfl
  | cons s rest =>
    simp only [List.map_cons]
    refine sweep_agree spans3 hnest rest s ?_ ?_
    · rw [← h]
      exact insertionSort_pairwise spanLE3_total spanLE3_trans spans3
    · intro x hx
      rw [← @mem_insertionSort _ spanLE3 x spans3, h]
      exact hx

/-- Witness for C6 (amended) on the nested overlapping pair
`(0,10) ⊇ (2,5)`. -/
theorem claim6_witness :
    (merge_overlapping_spans [(0, 10, "a".data), (2, 5, "b".data)]).map proj =
      merge_overlapping_spans_optimized [(0, 10), (2, 5)] :=
  claim6_merge_equivalence_on_nested [(0, 10, "a".data), (2, 5, "b".data)]
    (by decide)

/-! ### Non-emptiness of pipeline outputs (for C4) -/

theorem slice_ne_nil {text : Str} {a b : Nat} (hab : a < b)
    (hb : b ≤ text.length) : slice text a b ≠ [] := by
  unfold slice
  intro h
  have hlen := congrArg List.length h
  rw [List.length_take, List.length_drop] at hlen
  simp only [List.length_nil] at hlen
  rw [Nat.min_def] at hlen
  split_ifs at hlen <;> omega

theorem tokenize_simple_ne_nil (text : Str) :
    ∀ t ∈ tokenize_simple text, t ≠ [] := by
  intro t ht
  have h2 := (List.mem_filter.1 ht).2
  intro hnil
  subst hnil
  simp at h2

theorem lowerStr_ne_nil {t : Str} (h : t ≠ []) : lowerStr t ≠ [] := by
  unfold lowerStr
  intro hm
  exact h (List.map_eq_nil_iff.1 hm)

theorem post_process_with_preserved_ne_nil (tokens : List Str)
    (cfg : TokenizerConfig) (pc : Option Str)
    (h : ∀ t ∈ tokens, t ≠ []) :
    ∀ t ∈ post_process_with_preserved tokens cfg pc, t ≠ [] := by
  unfold post_process_with_preserved
  intro t ht
  by_cases hrp : cfg.remove_punctuation
  · rw [if_pos hrp] at ht
    exact of_decide_eq_true (List.mem_filter.1 ht).2
  · rw [if_neg hrp] at ht
    by_cases hlc : cfg.lowercase
    · rw [if_pos hlc] at ht
      rcases List.mem_map.1 ht with ⟨u, hu, rfl⟩
      exact lowerStr_ne_nil (h u hu)
    · rw [if_neg hlc] at ht
      exact h t ht

theorem post_process_in_place_ne_nil (tokens : List Str)
    (cfg : TokenizerConfig) (h : ∀ t ∈ tokens, t ≠ []) :
    ∀ t ∈ post_process_in_place tokens cfg, t ≠ [] := by
  unfold post_process_in_place
  intro t ht
  by_cases hrp : cfg.remove_punctuation
  · rw [if_pos hrp] at ht
    exact of_decide_eq_true (List.mem_filter.1 ht).2
  · rw [if_neg hrp] at ht
    by_cases hlc : cfg.lowercase
    · rw [if_pos hlc] at ht
      rcases List.mem_map.1 ht with ⟨u, hu, rfl⟩
      exact lowerStr_ne_nil (h u hu)
    · rw [if_neg hlc] at ht
      exact h t ht

/-- Merging valid (non-empty, in-bounds) spans yields valid spans. -/
theorem merge_opt_valid (spans : List Span) (n : Nat)
    (h : ∀ sp ∈ spans, sp.1 < sp.2 ∧ sp.2 ≤ n) :
    ∀ sp ∈ merge_overlapping_spans_optimized spans, sp.1 < sp.2 ∧ sp.2 ≤ n := by
  intro sp hsp
  rw [merge_opt_eq_groups] at hsp
  rcases List.mem_map.1 hsp with ⟨g, hg, rfl⟩
  have hgne := mergeGroups_ne_nil spans g hg
  have hmem : ∀ x ∈ g, x ∈ spans := by
    intro x hx
    have hx2 : x ∈ (mergeGroups spans).flatten :=
      (sublist_flatten_of_mem _ g hg).mem hx
    rw [mergeGroups_flatten_sorted] at hx2
    exact ((insertionSort_perm spans).mem_iff).1 hx2
  have hhead := headD_mem hgne
  have hh := h _ (hmem _ hhead)
  constructor
  · show (g.headD (0, 0)).1 < maxEnds g
    have := le_maxEnds g _ hhead
    omega
  · show maxEnds g ≤ n
    rcases maxEnds_attained g with h0 | ⟨x, hx, hxe⟩
    · omega
    · rw [← hxe]
      exact (h x (hmem x hx)).2

theorem overlayWalk_ne_nil (cfg : TokenizerConfig) (tokFn : Str → List Str)
    (hfn : ∀ s, ∀ t ∈ tokFn s, t ≠ []) (text : Str) :
    ∀ (spans : List Span) (pos : Nat),
      (∀ sp ∈ spans, sp.1 < sp.2 ∧ sp.2 ≤ text.length) →
      ∀ t ∈ overlayWalk cfg tokFn text pos spans, t ≠ [] := by
  intro spans
  induction spans with
  | nil =>
    intro pos _ t ht
    rw [overlayWalk] at ht
    split_ifs at ht with hpos
    · exact post_process_in_place_ne_nil _ _ (hfn _) t ht
    · cases ht
  | cons sp rest ih =>
    intro pos hval t ht
    obtain ⟨s, e⟩ := sp
    rw [overlayWalk] at ht
    rcases List.mem_append.1 ht with hgap | hrest
    · split_ifs at hgap with hpos
      · exact post_process_in_place_ne_nil _ _ (hfn _) t hgap
      · cases hgap
    · rcases List.mem_cons.1 hrest with rfl | ht'
      · exact slice_ne_nil (hval (s, e) (by simp)).1 (hval (s, e) (by simp)).2
      · exact ih e (fun sp h => hval sp (by simp [h])) t ht'

theorem apply_preserve_ne_nil (re : RegexEngine) (tokens : List Str)
    (pats : List Str) (text : Str) (cfg : TokenizerConfig)
    (tokFn : Str → List Str)
    (hfn : ∀ s, ∀ t ∈ tokFn s, t ≠ [])
    (hmatch : ∀ p, ∀ sp ∈ re.findAll p text, sp.1 < sp.2 ∧ sp.2 ≤ text.length)
    (htok : ∀ t ∈ tokens, t ≠ []) :
    ∀ t ∈ apply_preserve_patterns_with_tokenizer re tokens pats text cfg tokFn,
      t ≠ [] := by
  intro t ht
  simp only [apply_preserve_patterns_with_tokenizer] at ht
  by_cases h1 : pats = []
  · rw [if_pos h1] at ht
    exact htok t ht
  · rw [if_neg h1] at ht
    by_cases h2 : pats.flatMap (fun p => re.findAll p text) = []
    · rw [if_pos h2] at ht
      exact htok t ht
    · rw [if_neg h2] at ht
      have hval : ∀ sp ∈ pats.flatMap (fun p => re.findAll p text),
          sp.1 < sp.2 ∧ sp.2 ≤ text.length := by
        intro sp hsp
        rcases List.mem_flatMap.1 hsp with ⟨p, _, hsp⟩
        exact hmatch p sp hsp
      exact overlayWalk_ne_nil cfg tokFn hfn text _ 0
        (merge_opt_valid _ _ hval) t ht

/-- The concrete regex engine for the C4 counterexample: the pattern `x*`
matches the empty string at offsets 0, 1 and 2 of `"ab"` (as
`Regex::find_iter` does for a pattern that matches the empty string). -/
def emptyMatchEngine : RegexEngine where
  compile := some
  findAll := fun p t =>
    if p = "x*".data && t = "ab".data then [(0, 0), (1, 1), (2, 2)] else []
  findFirst := fun _ _ => none
  isMatch := fun _ _ => false

/-- C4 counterexample: under the valid Whitespace configuration with
preserve pattern `x*` (which matches the empty string), tokenizing
`"ab"` returns `["", "a", "", "b", ""]` — the empty preserved spans are
emitted as empty tokens, so the claim "every token is non-empty, in
particular when a preserve pattern can match the empty string" is false. -/
theorem claim4_counterexample :
    validate_config emptyMatchEngine
      ⟨.whitespace, false, false, ["x*".data]⟩ = .ok () ∧
    whitespaceTokenize emptyMatchEngine
        ⟨.whitespace, false, false, ["x*".data]⟩ "ab".data =
      [[], "a".data, [], "b".data, []] ∧
    [] ∈ whitespaceTokenize emptyMatchEngine
        ⟨.whitespace, false, false, ["x*".data]⟩ "ab".data :=
  ⟨rfl, by decide, by decide⟩

/-- C4 (amended): provided every preserve-pattern match span is non-empty
(and in bounds), the pipeline never emits an empty token: the
preserve-pattern overlay (over any token list with no empty tokens, any
pattern list, any configuration) and `post_process_with_preserved` both
return only non-empty tokens, and so does the whole Whitespace-strategy
`tokenize`; a token stripped empty by punctuation removal is dropped. -/
theorem claim4_no_empty_tokens (re : RegexEngine) (cfg : TokenizerConfig)
    (text : Str) (tokens : List Str) (pats : List Str) (pc : Option Str)
    (hmatch : ∀ p, ∀ sp ∈ re.findAll p text, sp.1 < sp.2 ∧ sp.2 ≤ text.length)
    (htok : ∀ t ∈ tokens, t ≠ []) :
    (∀ t ∈ apply_preserve_patterns re tokens pats text cfg, t ≠ []) ∧
    (∀ t ∈ post_process_with_preserved tokens cfg pc, t ≠ []) ∧
    (∀ t ∈ whitespaceTokenize re cfg text, t ≠ []) := by
  refine ⟨?_, post_process_with_preserved_ne_nil tokens cfg pc htok, ?_⟩
  · exact apply_preserve_ne_nil re tokens pats text cfg tokenize_simple
      (fun s => tokenize_simple_ne_nil s) hmatch htok
  · intro t ht
    unfold whitespaceTokenize at ht
    have hraw : ∀ u ∈ (splitWhitespace text).filter (fun s => !s.isEmpty),
        u ≠ [] := tokenize_simple_ne_nil text
    by_cases hp : create_preserve_patterns re cfg ≠ []
    · rw [if_pos hp] at ht
      exact apply_preserve_ne_nil re _ _ text cfg tokenize_simple
        (fun s => tokenize_simple_ne_nil s) hmatch hraw t ht
    · rw [if_neg hp] at ht
      exact post_process_with_preserved_ne_nil _ cfg none hraw t ht

/-- Witness for C4 (amended): a non-empty in-bounds match keeps all tokens
non-empty on a concrete run. -/
theorem claim4_witness :
    (whitespaceTokenize
        ⟨some, fun p t => if p = "b".data && t = "ab".data then [(1, 2)] else [],
         fun _ _ => none, fun _ _ => false⟩
        ⟨.whitespace, false, false, ["b".data]⟩ "ab".data).all
      (fun t => !t.isEmpty) = true := by
  have h := (claim4_no_empty_tokens
    ⟨some, fun p t => if p = "b".data && t = "ab".data then [(1, 2)] else [],
     fun _ _ => none, fun _ _ => false⟩
    ⟨.whitespace, false, false, ["b".data]⟩ "ab".data [] [] none
    (by intro p sp hsp
        by_cases h : p = "b".data
        · simp [h] at hsp
          subst hsp
          exact ⟨by decide, by decide⟩
        · simp [h] at hsp)
    (by intro t ht; cases ht)).2.2
  rw [List.all_eq_true]
  intro t htm
  have h2 := h t htm
  simp only [Bool.not_eq_true', List.isEmpty_eq_false]
  exact h2

/-- C7: For every configuration with an empty `preserve_patterns` list, the
preserve-pattern overlay is the identity on any token list (no
re-tokenization of any part of the text), and `tokenize` is exactly the raw
strategy segmentation passed through post-processing — shown for the fully
modelled Whitespace, Letter and CharGroup strategies. -/
theorem claim7_empty_patterns_identity (re : RegexEngine) (cfg : TokenizerConfig)
    (text : Str) (tokens : List Str) (tokFn : Str → List Str)
    (hp : cfg.preserve_patterns = []) :
    create_preserve_patterns re cfg = [] ∧
    apply_preserve_patterns_with_tokenizer re tokens cfg.preserve_patterns
      text cfg tokFn = tokens ∧
    whitespaceTokenize re cfg text =
      post_process ((splitWhitespace text).filter (fun s => !s.isEmpty)) cfg ∧
    letterTokenize re cfg text = post_process (letterSegments text []) cfg ∧
    (∀ split_chars, charGroupTokenize re split_chars cfg text =
      post_process (charGroupSegments split_chars text []) cfg) := by
  have hc : create_preserve_patterns re cfg = [] := by
    rw [create_preserve_patterns, hp]
    rfl
  refine ⟨hc, ?_, ?_, ?_, ?_⟩
  · rw [apply_preserve_patterns_with_tokenizer, if_pos hp]
  · rw [whitespaceTokenize]
    simp only [hc]
    rw [if_neg (by simp)]
  · rw [letterTokenize]
    simp only [hc]
    rw [if_neg (by simp)]
  · intro split_chars
    rw [charGroupTokenize]
    simp only [hc]
    rw [if_neg (by simp)]

/-- Witness for C7 at a concrete empty-pattern configuration. -/
theorem claim7_witness :
    whitespaceTokenize ⟨some, fun _ _ => [], fun _ _ => none, fun _ _ => false⟩
        ⟨.whitespace, true, false, []⟩ "Hello World".data =
      post_process
        ((splitWhitespace "Hello World".data).filter (fun s => !s.isEmpty))
        ⟨.whitespace, true, false, []⟩ :=
  (claim7_empty_patterns_identity
    ⟨some, fun _ _ => [], fun _ _ => none, fun _ _ => false⟩
    ⟨.whitespace, true, false, []⟩ "Hello World".data [] (fun _ => []) rfl).2.2.1

theorem filterMap_drop_none {f : Str → Option Str} {p : Str} (hf : f p = none) :
    ∀ ps : List Str, ps.filterMap f = (ps.filter (fun q => q ≠ p)).filterMap f := by
  intro ps
  induction ps with
  | nil => rfl
  | cons q rest ih =>
    by_cases hq : q = p
    · subst hq
      rw [List.filterMap_cons, hf, List.filter_cons]
      rw [if_neg (by simp)]
      exact ih
    · rw [List.filterMap_cons, List.filter_cons, if_pos (by simp [hq]),
        List.filterMap_cons]
      cases h : f q with
      | none => exact ih
      | some r => rw [ih]

theorem validatePatterns_first_error (re : RegexEngine) :
    ∀ ps : List Str, (∃ p ∈ ps, re.compile p = none) →
      ∃ q ∈ ps, re.compile q = none ∧
        validatePatterns re ps = .error (.invalidRegex q) := by
  intro ps
  induction ps with
  | nil => rintro ⟨p, hp, _⟩; cases hp
  | cons q rest ih =>
    rintro ⟨p, hp, hbad⟩
    cases hq : re.compile q with
    | none =>
      refine ⟨q, by simp, hq, ?_⟩
      rw [validatePatterns, hq]
    | some r =>
      have hpr : p ∈ rest := by
        rcases List.mem_cons.1 hp with rfl | hpr
        · rw [hq] at hbad; cases hbad
        · exact hpr
      rcases ih ⟨p, hpr, hbad⟩ with ⟨q', hq', hbad', heq⟩
      refine ⟨q', by simp [hq'], hbad', ?_⟩
      rw [validatePatterns, hq]
      exact heq

theorem post_process_with_preserved_config_congr (tokens : List Str)
    (pc : Option Str) (c c' : TokenizerConfig) (hl : c.lowercase = c'.lowercase)
    (hr : c.remove_punctuation = c'.remove_punctuation) :
    post_process_with_preserved tokens c pc =
      post_process_with_preserved tokens c' pc := by
  unfold post_process_with_preserved
  rw [hl, hr]

theorem post_process_in_place_config_congr (tokens : List Str)
    (c c' : TokenizerConfig) (hl : c.lowercase = c'.lowercase)
    (hr : c.remove_punctuation = c'.remove_punctuation) :
    post_process_in_place tokens c = post_process_in_place tokens c' := by
  unfold post_process_in_place
  rw [hl, hr]

theorem overlayWalk_config_congr (tokFn : Str → List Str) (text : Str)
    (c c' : TokenizerConfig) (hl : c.lowercase = c'.lowercase)
    (hr : c.remove_punctuation = c'.remove_punctuation) :
    ∀ (spans : List Span) (pos : Nat),
      overlayWalk c tokFn text pos spans = overlayWalk c' tokFn text pos spans := by
  intro spans
  induction spans with
  | nil =>
    intro pos
    rw [overlayWalk, overlayWalk,
      post_process_in_place_config_congr _ c c' hl hr]
  | cons sp rest ih =>
    intro pos
    obtain ⟨s, e⟩ := sp
    rw [overlayWalk, overlayWalk,
      post_process_in_place_config_congr _ c c' hl hr, ih]

theorem apply_preserve_patterns_config_congr (re : RegexEngine)
    (tokens : List Str) (pats : List Str) (text : Str)
    (c c' : TokenizerConfig) (hl : c.lowercase = c'.lowercase)
    (hr : c.remove_punctuation = c'.remove_punctuation) :
    apply_preserve_patterns re tokens pats text c =
      apply_preserve_patterns re tokens pats text c' := by
  unfold apply_preserve_patterns apply_preserve_patterns_with_tokenizer
  simp only
  rw [overlayWalk_config_congr tokenize_simple text c c' hl hr]

/-- C10: a preserve-pattern string that does not compile is silently
dropped at construction: `from_config` still returns a (Whitespace)
tokenizer whose compiled pattern set — and hence whose `tokenize` on every
text — is exactly that of the configuration without the offending pattern;
only the separate `validate_config` step rejects the configuration, with
`InvalidRegex` naming the first non-compiling pattern. -/
theorem claim10_bad_pattern_dropped (re : RegexEngine) (cfg : TokenizerConfig)
    (p : Str) (text : Str) (hpm : p ∈ cfg.preserve_patterns)
    (hbad : re.compile p = none) :
    (cfg.strategy = .whitespace →
      from_config re cfg = .ok (.whitespace cfg (create_preserve_patterns re cfg))) ∧
    create_preserve_patterns re cfg =
      create_preserve_patterns re
        {cfg with preserve_patterns := cfg.preserve_patterns.filter (fun q => q ≠ p)} ∧
    whitespaceTokenize re cfg text =
      whitespaceTokenize re
        {cfg with preserve_patterns := cfg.preserve_patterns.filter (fun q => q ≠ p)}
        text ∧
    (cfg.strategy = .whitespace →
      ∃ q ∈ cfg.preserve_patterns, re.compile q = none ∧
        validate_config re cfg = .error (.invalidRegex q)) := by
  have hcp : create_preserve_patterns re cfg =
      create_preserve_patterns re
        {cfg with preserve_patterns := cfg.preserve_patterns.filter (fun q => q ≠ p)} := by
    unfold create_preserve_patterns
    exact filterMap_drop_none hbad cfg.preserve_patterns
  refine ⟨?_, hcp, ?_, ?_⟩
  · intro hstrat
    rw [from_config, hstrat]
  · simp only [whitespaceTokenize]
    rw [← hcp]
    by_cases h : create_preserve_patterns re cfg ≠ []
    · rw [if_pos h, if_pos h]
      exact apply_preserve_patterns_config_congr re _ _ text _ _ rfl rfl
    · rw [if_neg h, if_neg h]
      exact post_process_with_preserved_config_congr _ none _ _ rfl rfl
  · intro hstrat
    rcases validatePatterns_first_error re cfg.preserve_patterns ⟨p, hpm, hbad⟩
      with ⟨q, hq, hbad', heq⟩
    refine ⟨q, hq, hbad', ?_⟩
    rw [validate_config, hstrat]
    show validatePatterns re cfg.preserve_patterns = _
    exact heq

/-- Witness for C10 with a concretely failing pattern `[` alongside a
compiling one. -/
theorem claim10_witness :
    whitespaceTokenize
        ⟨fun q => if q = "[".data then none else some q,
         fun _ _ => [], fun _ _ => none, fun _ _ => false⟩
        ⟨.whitespace, false, false, ["[".data, "ab".data]⟩ "ab cd".data =
      whitespaceTokenize
        ⟨fun q => if q = "[".data then none else some q,
         fun _ _ => [], fun _ _ => none, fun _ _ => false⟩
        ⟨.whitespace, false, false,
          (["[".data, "ab".data].filter (fun q => q ≠ "[".data))⟩ "ab cd".data :=
  (claim10_bad_pattern_dropped
    ⟨fun q => if q = "[".data then none else some q,
     fun _ _ => [], fun _ _ => none, fun _ _ => false⟩
    ⟨.whitespace, false, false, ["[".data, "ab".data]⟩ "[".data "ab cd".data
    (by simp) (by simp)).2.2.1

/-! ### Position-instrumented whitespace splitting (for C2) -/

/-- `splitWhitespaceAux`, additionally recording the original-text index at
which each word starts (`i` is the index of the next character, `accStart`
the start index of the word being accumulated). -/
def splitWhitespacePosAux : List Char → Nat → Str → Nat → List (Nat × Str)
  | [], _, acc, accStart => if acc = [] then [] else [(accStart, acc.reverse)]
  | c :: rest, i, acc, accStart =>
    if c.isWhitespace then
      if acc = [] then splitWhitespacePosAux rest (i + 1) [] 0
      else (accStart, acc.reverse) :: splitWhitespacePosAux rest (i + 1) [] 0
    else
      if acc = [] then splitWhitespacePosAux rest (i + 1) [c] i
      else splitWhitespacePosAux rest (i + 1) (c :: acc) accStart

/-- The whitespace-delimited words of a text with their start offsets. -/
def splitWhitespacePos (s : Str) : List (Nat × Str) :=
  splitWhitespacePosAux s 0 [] 0

theorem splitWhitespacePosAux_snd :
    ∀ (l : List Char) (i : Nat) (acc : Str) (accStart : Nat),
      (splitWhitespacePosAux l i acc accStart).map Prod.snd =
        splitWhitespaceAux l acc := by
  intro l
  induction l with
  | nil =>
    intro i acc accStart
    rw [splitWhitespacePosAux, splitWhitespaceAux]
    by_cases h : acc = []
    · rw [if_pos h, if_pos h]; rfl
    · rw [if_neg h, if_neg h]; rfl
  | cons c rest ih =>
    intro i acc accStart
    rw [splitWhitespacePosAux, splitWhitespaceAux]
    by_cases hw : c.isWhitespace
    · rw [if_pos hw, if_pos hw]
      by_cases h : acc = []
      · rw [if_pos h, if_pos h]
        exact ih _ _ _
      · rw [if_neg h, if_neg h, List.map_cons, ih]
    · rw [if_neg hw, if_neg hw]
      by_cases h : acc = []
      · rw [if_pos h, h]
        exact ih _ _ _
      · rw [if_neg h]
        exact ih _ _ _

theorem splitWhitespacePosAux_lb :
    ∀ (l : List Char) (i : Nat) (acc : Str) (accStart : Nat),
      accStart ≤ i →
      ∀ x ∈ splitWhitespacePosAux l i acc accStart,
        accStart ≤ x.1 ∧ (acc = [] → i ≤ x.1) := by
  intro l
  induction l with
  | nil =>
    intro i acc accStart hle x hx
    rw [splitWhitespacePosAux] at hx
    by_cases h : acc = []
    · rw [if_pos h] at hx; cases hx
    · rw [if_neg h] at hx
      rcases List.mem_singleton.1 hx with rfl
      exact ⟨Nat.le_refl _, fun hc => absurd hc h⟩
  | cons c rest ih =>
    intro i acc accStart hle x hx
    rw [splitWhitespacePosAux] at hx
    by_cases hw : c.isWhitespace
    · rw [if_pos hw] at hx
      by_cases h : acc = []
      · rw [if_pos h] at hx
        have := ih _ _ _ (Nat.zero_le _) x hx
        exact ⟨Nat.le_trans hle (Nat.le_trans (Nat.le_succ i) (this.2 rfl)),
          fun _ => Nat.le_trans (Nat.le_succ i) (this.2 rfl)⟩
      · rw [if_neg h] at hx
        rcases List.mem_cons.1 hx with rfl | hx
        · exact ⟨Nat.le_refl _, fun hc => absurd hc h⟩
        · have := ih _ _ _ (Nat.zero_le _) x hx
          exact ⟨Nat.le_trans hle (Nat.le_trans (Nat.le_succ i) (this.2 rfl)),
            fun _ => Nat.le_trans (Nat.le_succ i) (this.2 rfl)⟩
    · rw [if_neg hw] at hx
      by_cases h : acc = []
      · rw [if_pos h] at hx
        have := ih _ _ _ (Nat.le_succ i) x hx
        exact ⟨Nat.le_trans hle this.1, fun _ => this.1⟩
      · rw [if_neg h] at hx
        have := ih _ _ _ (Nat.le_trans hle (Nat.le_succ i)) x hx
        exact ⟨this.1, fun hc => absurd hc h⟩

theorem splitWhitespacePosAux_sorted :
    ∀ (l : List Char) (i : Nat) (acc : Str) (accStart : Nat),
      accStart ≤ i →
      (splitWhitespacePosAux l i acc accStart).Pairwise
        (fun a b => a.1 ≤ b.1) := by
  intro l
  induction l with
  | nil =>
    intro i acc accStart _
    rw [splitWhitespacePosAux]
    by_cases h : acc = []
    · rw [if_pos h]; exact .nil
    · rw [if_neg h]; exact List.pairwise_singleton _ _
  | cons c rest ih =>
    intro i acc accStart hle
    rw [splitWhitespacePosAux]
    by_cases hw : c.isWhitespace
    · rw [if_pos hw]
      by_cases h : acc = []
      · rw [if_pos h]
        exact ih _ _ _ (Nat.zero_le _)
      · rw [if_neg h]
        refine List.Pairwise.cons ?_ (ih _ _ _ (Nat.zero_le _))
        intro y hy
        have := splitWhitespacePosAux_lb rest (i + 1) [] 0 (Nat.zero_le _) y hy
        exact Nat.le_trans hle (Nat.le_trans (Nat.le_succ i) (this.2 rfl))
    · rw [if_neg hw]
      by_cases h : acc = []
      · rw [if_pos h]
        exact ih _ _ _ (Nat.le_succ i)
      · rw [if_neg h]
        exact ih _ _ _ (Nat.le_trans hle (Nat.le_succ i))

/-- The per-word token block of the instrumented EdgeNgram tokenizer: the
word's edge n-grams, each paired with the word's start offset. -/
def edgeBlock (min_gram max_gram : Nat) (config : TokenizerConfig)
    (pw : Nat × Str) : List (Nat × Str) :=
  let processed_word :=
    if config.remove_punctuation then pw.2.filter (fun c => !isAsciiPunctuation c)
    else pw.2
  if processed_word = [] then []
  else (generate_edge_ngrams min_gram max_gram processed_word).map
    fun t => (pw.1, t)

/-- `EdgeNgramTokenizer::tokenize`, instrumented with the original-text
start offset of the word each token is a prefix of. -/
def edgeNgramTokensWithPos (min_gram max_gram : Nat) (config : TokenizerConfig)
    (text : Str) : List (Nat × Str) :=
  let all := (splitWhitespacePos text).flatMap (edgeBlock min_gram max_gram config)
  if config.lowercase then all.map (fun pt => (pt.1, lowerStr pt.2)) else all

theorem edgeBlock_fst (mn mx : Nat) (cfg : TokenizerConfig) (pw : Nat × Str) :
    ∀ x ∈ edgeBlock mn mx cfg pw, x.1 = pw.1 := by
  intro x hx
  simp only [edgeBlock] at hx
  by_cases h : (if cfg.remove_punctuation then
      pw.2.filter (fun c => !isAsciiPunctuation c) else pw.2) = []
  · rw [if_pos h] at hx
    cases hx
  · rw [if_neg h] at hx
    rcases List.mem_map.1 hx with ⟨t, _, rfl⟩
    rfl

theorem edgeBlock_snd (mn mx : Nat) (cfg : TokenizerConfig) (pw : Nat × Str) :
    (edgeBlock mn mx cfg pw).map Prod.snd =
      (if (if cfg.remove_punctuation then
          pw.2.filter (fun c => !isAsciiPunctuation c) else pw.2) = [] then []
       else generate_edge_ngrams mn mx
         (if cfg.remove_punctuation then
           pw.2.filter (fun c => !isAsciiPunctuation c) else pw.2)) := by
  simp only [edgeBlock]
  by_cases h : (if cfg.remove_punctuation then
      pw.2.filter (fun c => !isAsciiPunctuation c) else pw.2) = []
  · rw [if_pos h, if_pos h]
    rfl
  · rw [if_neg h, if_neg h, List.map_map]
    exact List.map_id' _

theorem edgeBlock_pairwise (mn mx : Nat) (cfg : TokenizerConfig)
    (pw : Nat × Str) :
    (edgeBlock mn mx cfg pw).Pairwise (fun a b => a.1 ≤ b.1) := by
  simp only [edgeBlock]
  by_cases h : (if cfg.remove_punctuation then
      pw.2.filter (fun c => !isAsciiPunctuation c) else pw.2) = []
  · rw [if_pos h]
    exact .nil
  · rw [if_neg h]
    exact (List.pairwise_map).2 (pairwise_of_all (fun a b => Nat.le_refl _) _)

theorem edgeNgramTokensWithPos_snd (mn mx : Nat) (cfg : TokenizerConfig)
    (text : Str) :
    (edgeNgramTokensWithPos mn mx cfg text).map Prod.snd =
      edgeNgramTokenize mn mx cfg text := by
  unfold edgeNgramTokensWithPos edgeNgramTokenize ngramWordLoop
  simp only
  have hcore : ((splitWhitespacePos text).flatMap
        (edgeBlock mn mx cfg)).map Prod.snd =
      (splitWhitespace text).flatMap fun word =>
        let processed_word :=
          if cfg.remove_punctuation then word.filter (fun c => !isAsciiPunctuation c)
          else word
        if processed_word = [] then []
        else generate_edge_ngrams mn mx processed_word := by
    rw [List.map_flatMap]
    rw [show splitWhitespace text = (splitWhitespacePos text).map Prod.snd from
      (splitWhitespacePosAux_snd text 0 [] 0).symm]
    rw [List.flatMap_map]
    refine List.flatMap_congr ?_
    intro pw _
    exact edgeBlock_snd mn mx cfg pw
  by_cases hlc : cfg.lowercase
  · rw [if_pos hlc, if_pos hlc, List.map_map]
    rw [show (Prod.snd ∘ fun pt : Nat × Str => (pt.1, lowerStr pt.2)) =
      lowerStr ∘ Prod.snd from rfl]
    rw [← List.map_map, hcore]
  · rw [if_neg hlc, if_neg hlc, hcore]

theorem edgeNgramTokensWithPos_sorted (mn mx : Nat) (cfg : TokenizerConfig)
    (text : Str) :
    (edgeNgramTokensWithPos mn mx cfg text).Pairwise
      (fun a b => a.1 ≤ b.1) := by
  unfold edgeNgramTokensWithPos
  simp only
  have hall : ((splitWhitespacePos text).flatMap
      (edgeBlock mn mx cfg)).Pairwise (fun a b => a.1 ≤ b.1) := by
    refine pairwise_flatMap (S := fun a b : Nat × Str => a.1 ≤ b.1)
      (splitWhitespacePosAux_sorted text 0 [] 0 (Nat.le_refl 0))
      (fun pw _ => edgeBlock_pairwise mn mx cfg pw) ?_
    intro a b hab x hx y hy
    rw [edgeBlock_fst mn mx cfg a x hx, edgeBlock_fst mn mx cfg b y hy]
    exact hab
  by_cases hlc : cfg.lowercase
  · rw [if_pos hlc]
    refine (List.pairwise_map).2 (hall.imp ?_)
    intro a b hab
    exact hab
  · rw [if_neg hlc]
    exact hall

/-! ### The progressive-prefix form of `generate_hierarchy` (for C9) -/

/-- The non-empty segments of a path split on the delimiter. -/
def hierSegs (delimiter path : Str) : List Str :=
  (splitOnStr delimiter path).filter (fun s => s ≠ [])

/-- The retained leading delimiter of a delimiter-initial path. -/
def hierLead (delimiter path : Str) : Str :=
  if delimiter.isPrefixOf path then delimiter else []

/-- The claim's enumeration of the PathHierarchy output: the Nth token is
the leading delimiter (when the path starts with one) followed by the first
N non-empty segments joined by the delimiter. -/
def hierarchyPrefixes (delimiter path : Str) : List Str :=
  (List.range (hierSegs delimiter path).length).map fun n =>
    hierLead delimiter path ++
      joinWith delimiter ((hierSegs delimiter path).take (n + 1))

/-- The path accumulated by `generate_hierarchy` after the given non-empty
segments. -/
def hierCur (delimiter : Str) (swd : Bool) (segs : List Str) : Str :=
  if segs = [] then []
  else (if swd then delimiter else []) ++ joinWith delimiter segs

theorem joinWith_ne_nil (sep : Str) :
    ∀ segs : List Str, segs ≠ [] → (∀ s ∈ segs, s ≠ []) →
      joinWith sep segs ≠ [] := by
  intro segs hne h0
  cases segs with
  | nil => exact absurd rfl hne
  | cons s rest =>
    cases rest with
    | nil =>
      show s ≠ []
      exact h0 s (by simp)
    | cons t r =>
      show s ++ sep ++ joinWith sep (t :: r) ≠ []
      intro h
      have hs := h0 s (by simp)
      rcases List.append_eq_nil.1 h with ⟨h1, _⟩
      rcases List.append_eq_nil.1 h1 with ⟨h2, _⟩
      exact hs h2

theorem joinWith_append_single (sep : Str) :
    ∀ (l : List Str), l ≠ [] → ∀ s : Str,
      joinWith sep (l ++ [s]) = joinWith sep l ++ sep ++ s := by
  intro l
  induction l with
  | nil => intro h; exact absurd rfl h
  | cons x l ih =>
    intro _ s
    cases l with
    | nil => rfl
    | cons y r =>
      show joinWith sep (x :: (y :: r ++ [s])) = _
      rw [show joinWith sep (x :: (y :: r ++ [s])) =
        x ++ sep ++ joinWith sep (y :: r ++ [s]) from rfl]
      rw [ih (by simp) s]
      show x ++ sep ++ (joinWith sep (y :: r) ++ sep ++ s) =
        x ++ sep ++ joinWith sep (y :: r) ++ sep ++ s
      simp [List.append_assoc]

theorem take_append_exact :
    ∀ (l l' : List Str) (k : Nat), (l ++ l').take (l.length + k) = l ++ l'.take k := by
  intro l
  induction l with
  | nil =>
    intro l' k
    simp
  | cons x l ih =>
    intro l' k
    have h1 : (x :: l).length + k = (l.length + k) + 1 := by
      simp only [List.length_cons]
      omega
    rw [List.cons_append, h1, List.take_succ_cons, ih, List.cons_append]

theorem hierCur_extend (delim : Str) (swd : Bool) (segs0 : List Str)
    (h0 : ∀ s ∈ segs0, s ≠ []) (part : Str) :
    (if hierCur delim swd segs0 ≠ [] then hierCur delim swd segs0 ++ delim
     else if swd then delim else []) ++ part =
      hierCur delim swd (segs0 ++ [part]) := by
  by_cases hs : segs0 = []
  · subst hs
    have h1 : hierCur delim swd [] = [] := rfl
    rw [h1, if_neg (show ¬(([] : Str) ≠ []) from by simp)]
    show (if swd then delim else []) ++ part = hierCur delim swd [part]
    rw [hierCur, if_neg (show ¬([part] = ([] : List Str)) from by simp)]
    rfl
  · have hcur : hierCur delim swd segs0 ≠ [] := by
      rw [hierCur, if_neg hs]
      intro h
      rcases List.append_eq_nil.1 h with ⟨_, h2⟩
      exact joinWith_ne_nil delim segs0 hs h0 h2
    rw [if_pos hcur]
    show hierCur delim swd segs0 ++ delim ++ part = hierCur delim swd (segs0 ++ [part])
    rw [hierCur, if_neg hs]
    rw [hierCur, if_neg (show ¬(segs0 ++ [part] = []) from by simp)]
    rw [joinWith_append_single delim segs0 hs part]
    simp [List.append_assoc]

theorem genHierAux_spec (delim : Str) (swd : Bool) :
    ∀ (parts segs0 : List Str), (∀ s ∈ segs0, s ≠ []) →
      genHierAux delim swd parts (hierCur delim swd segs0) =
        (List.range (parts.filter (fun s => s ≠ [])).length).map fun n =>
          (if swd then delim else []) ++
            joinWith delim
              ((segs0 ++ parts.filter (fun s => s ≠ [])).take
                (segs0.length + n + 1)) := by
  intro parts
  induction parts with
  | nil =>
    intro segs0 _
    rfl
  | cons part parts ih =>
    intro segs0 h0
    by_cases hpe : part = []
    · subst hpe
      rw [genHierAux, if_pos rfl]
      rw [show ([] :: parts).filter (fun s => s ≠ []) =
        parts.filter (fun s => s ≠ []) by simp]
      exact ih segs0 h0
    · rw [genHierAux, if_neg hpe, hierCur_extend delim swd segs0 h0 part]
      have hfc : (part :: parts).filter (fun s => s ≠ []) =
          part :: parts.filter (fun s => s ≠ []) := by
        simp [hpe]
      rw [hfc]
      rw [show (part :: parts.filter (fun s => s ≠ [])).length =
        (parts.filter (fun s => s ≠ [])).length + 1 from rfl]
      rw [List.range_succ_eq_map, List.map_cons, List.map_map]
      have hhead : (if swd then delim else []) ++
          joinWith delim ((segs0 ++ part :: parts.filter (fun s => s ≠ [])).take
            (segs0.length + 0 + 1)) = hierCur delim swd (segs0 ++ [part]) := by
        rw [show segs0.length + 0 + 1 = segs0.length + 1 from rfl]
        rw [take_append_exact segs0 _ 1]
        rw [show (part :: parts.filter (fun s => s ≠ [])).take 1 = [part] from rfl]
        rw [hierCur, if_neg (show ¬(segs0 ++ [part] = []) from by simp)]
      have htail := ih (segs0 ++ [part]) (by
        intro s hs
        rcases List.mem_append.1 hs with hs | hs
        · exact h0 s hs
        · rcases List.mem_singleton.1 hs with rfl
          exact hpe)
      show hierCur delim swd (segs0 ++ [part]) ::
        genHierAux delim swd parts (hierCur delim swd (segs0 ++ [part])) = _
      rw [htail, ← hhead]
      refine congrArg _ (List.map_congr_left ?_)
      intro n _
      simp only [Function.comp]
      have harr : (segs0 ++ [part]).length + n + 1 = segs0.length + (n + 1) + 1 := by
        rw [List.length_append]
        simp
        omega
      rw [harr, List.append_assoc]
      rfl

/-- `generate_hierarchy` returns exactly the progressive prefixes of the
claim's enumeration. -/
theorem generate_hierarchy_eq_prefixes (delim path : Str) :
    generate_hierarchy delim path = hierarchyPrefixes delim path := by
  unfold generate_hierarchy hierarchyPrefixes hierSegs hierLead
  have h := genHierAux_spec delim (delim.isPrefixOf path) (splitOnStr delim path)
    [] (by intro s hs; cases hs)
  rw [show hierCur delim (delim.isPrefixOf path) [] = [] from rfl] at h
  rw [h]
  refine List.map_congr_left ?_
  intro n _
  have h1 : ([] : List Str).length + n + 1 = n + 1 := by simp
  rw [h1, List.nil_append]

/-- C9 counterexample: with the factory-default `lowercase = true`,
`PathHierarchy("/")` on `"/A/B"` returns `["/a","/a/b"]`, not the literal
progressive truncations `["/A","/A/B"]` of the input — the prefixes pass
through post-processing, so the claim's "each token being the path
truncated after the Nth segment" fails as stated. -/
theorem claim9_counterexample :
    pathHierarchyTokenize ⟨some, fun _ _ => [], fun _ _ => none, fun _ _ => false⟩
        "/".data ⟨.pathHierarchy "/".data, true, false, []⟩ "/A/B".data =
      ["/a".data, "/a/b".data] ∧
    ["/a".data, "/a/b".data] ≠ ["/A".data, "/A/B".data] :=
  ⟨by decide, by decide⟩

/-- C9 (amended): for every PathHierarchy configuration with a non-empty
delimiter and no preserve patterns, `tokenize` trims the input, rebuilds the
progressive prefixes from its non-empty segments — the Nth token is the
leading delimiter (if the trimmed input starts with one) followed by the
first N non-empty segments joined by the delimiter — and passes them
through post-processing with the delimiter's characters exempt from
punctuation removal; on `"/a/b/c"` with the factory defaults this yields
exactly `["/a","/a/b","/a/b/c"]`. -/
theorem claim9_path_hierarchy_prefixes (re : RegexEngine) (cfg : TokenizerConfig)
    (delim text : Str) (hp : cfg.preserve_patterns = []) (hd : delim ≠ []) :
    pathHierarchyTokenize re delim cfg text =
      post_process_with_preserved (hierarchyPrefixes delim (trimStr text)) cfg
        (some delim) ∧
    generate_hierarchy delim (trimStr text) =
      hierarchyPrefixes delim (trimStr text) ∧
    pathHierarchyTokenize ⟨some, fun _ _ => [], fun _ _ => none, fun _ _ => false⟩
        "/".data ⟨.pathHierarchy "/".data, true, false, []⟩ "/a/b/c".data =
      ["/a".data, "/a/b".data, "/a/b/c".data] := by
  have hc : create_preserve_patterns re cfg = [] := by
    rw [create_preserve_patterns, hp]
    rfl
  refine ⟨?_, generate_hierarchy_eq_prefixes delim (trimStr text), by decide⟩
  simp only [pathHierarchyTokenize, hc]
  by_cases htr : trimStr text = []
  · rw [if_pos htr, htr]
    rw [show hierarchyPrefixes delim [] = [] from rfl]
    unfold post_process_with_preserved
    split <;> simp
  · rw [if_neg htr, if_neg (show ¬(([] : List Str) ≠ []) from by simp),
      generate_hierarchy_eq_prefixes]

/-- Witness for C9 (amended) at the spec's `"/a/b/c"` example. -/
theorem claim9_witness :
    pathHierarchyTokenize ⟨some, fun _ _ => [], fun _ _ => none, fun _ _ => false⟩
        "/".data ⟨.pathHierarchy "/".data, true, false, []⟩ "/a/b/c".data =
      post_process_with_preserved
        (hierarchyPrefixes "/".data (trimStr "/a/b/c".data))
        ⟨.pathHierarchy "/".data, true, false, []⟩ (some "/".data) :=
  (claim9_path_hierarchy_prefixes
    ⟨some, fun _ _ => [], fun _ _ => none, fun _ _ => false⟩
    ⟨.pathHierarchy "/".data, true, false, []⟩ "/".data "/a/b/c".data rfl
    (by decide)).1

/-- The start offsets at which `tok` occurs as a contiguous substring of
`text`. -/
def substrStarts (text tok : Str) : List Nat :=
  (List.range (text.length + 1)).filter (fun i => tok.isPrefixOf (text.drop i))

/-- C2 counterexample: `Ngram(2,3)` on `"abcd"` returns
`["ab","bc","cd","abc","bcd"]`; the third token `"cd"` occurs in the text
only at offset 2 and the fourth token `"abc"` only at offset 0, so the
source positions of consecutive tokens decrease — the token sequence is not
in non-decreasing original-text position. -/
theorem claim2_counterexample :
    ngramTokenize 2 3 ⟨.ngram 2 3, false, false, []⟩ "abcd".data =
      ["ab".data, "bc".data, "cd".data, "abc".data, "bcd".data] ∧
    substrStarts "abcd".data "cd".data = [2] ∧
    substrStarts "abcd".data "abc".data = [0] ∧
    ¬ (2 : Nat) ≤ 0 :=
  ⟨by decide, by decide, by decide, by decide⟩

/-- C2 (amended): the EdgeNgram strategy does list its tokens in
non-decreasing original-text position — each token is a prefix of a source
word and the word start offsets are non-decreasing along the output — but
the Ngram strategy does not: per word it enumerates the spans `(start,len)`
with the gram length ascending and, only within one gram length, the start
offset ascending, so positions reset at each length increase (see the
counterexample). -/
theorem claim2_token_order (mn mx : Nat) (cfg : TokenizerConfig) (text : Str) :
    (edgeNgramTokensWithPos mn mx cfg text).map Prod.snd =
      edgeNgramTokenize mn mx cfg text ∧
    (edgeNgramTokensWithPos mn mx cfg text).Pairwise (fun a b => a.1 ≤ b.1) ∧
    (∀ word : Str, generate_ngrams mn mx word =
      (ngramSpans mn mx word.length).map fun p => (word.drop p.1).take p.2) ∧
    (∀ len, (ngramSpans mn mx len).Pairwise (fun a b => a.2 ≤ b.2)) ∧
    (∀ len, (ngramSpans mn mx len).Pairwise
      (fun a b => a.2 = b.2 → a.1 ≤ b.1)) :=
  ⟨edgeNgramTokensWithPos_snd mn mx cfg text,
   edgeNgramTokensWithPos_sorted mn mx cfg text,
   fun word => generate_ngrams_eq_spans mn mx word,
   fun len => ngramSpans_len_ascending mn mx len,
   fun len => ngramSpans_start_ascending mn mx len⟩

/-- The concrete regex-engine instance for the spec's preserve-pattern
example: `ID-\d+` matches `"contact ID-42 now"` exactly at the span
`[8,13)` (`"ID-42"`). -/
def idPatternEngine : RegexEngine where
  compile := some
  findAll := fun p t =>
    if p = "ID-\\d+".data && t = "contact ID-42 now".data then [(8, 13)] else []
  findFirst := fun _ _ => none
  isMatch := fun _ _ => false

/-- The Unicode word segmentation of the example text. -/
def exampleUwords : Str → List Str := fun t =>
  if t = "contact ID-42 now".data then
    ["contact".data, "ID".data, "42".data, "now".data]
  else []

/-- C1 (code bug): with the Unicode strategy, `lowercase = true` and the
preserve pattern `ID-\d+`, tokenizing `"contact ID-42 now"` yields
`["contact","id-42","now"]` — the preserved span `"ID-42"` is case-folded,
because `UnicodeTokenizer::tokenize` runs `post_process` over the overlay's
output a second time, while the overlay (and §4.4 of the spec, and every
other preserve-capable strategy) keeps preserved spans verbatim.  The claim
(and the spec's own example, `["contact","ID-42","now"]`) is violated by
the code. -/
theorem claim1_unicode_preserved_span_lowercased :
    unicodeTokenize idPatternEngine exampleUwords
        ⟨.unicode, true, false, ["ID-\\d+".data]⟩ "contact ID-42 now".data =
      ["contact".data, "id-42".data, "now".data] ∧
    apply_preserve_patterns idPatternEngine
        (exampleUwords "contact ID-42 now".data) ["ID-\\d+".data]
        "contact ID-42 now".data ⟨.unicode, true, false, ["ID-\\d+".data]⟩ =
      ["contact".data, "ID-42".data, "now".data] ∧
    ["contact".data, "id-42".data, "now".data] ≠
      ["contact".data, "ID-42".data, "now".data] := by
  refine ⟨by decide, by decide, by decide⟩

/-- C8: For every Ngram(min,max) configuration with `1 ≤ min ≤ max`, the
tokens `generate_ngrams` produces for a word are exactly the substrings of
every length `L ∈ [min, min(max,len)]` at every start offset — the span list
contains `(s,L)` iff `min ≤ L ≤ min(max,len)` and `s+L ≤ len` — enumerated
with `L` ascending and, within each `L`, start offset ascending; in
particular `Ngram(2,3)` on `"abcd"` tokenizes to
`["ab","bc","cd","abc","bcd"]` in that order. -/
theorem claim8_ngram_window_enumeration (mn mx : Nat) (hmn : 1 ≤ mn)
    (hmx : mn ≤ mx) (word : Str) :
    generate_ngrams mn mx word =
      (ngramSpans mn mx word.length).map (fun p => (word.drop p.1).take p.2) ∧
    (∀ s L, (s, L) ∈ ngramSpans mn mx word.length ↔
      mn ≤ L ∧ L ≤ Nat.min mx word.length ∧ s + L ≤ word.length) ∧
    (ngramSpans mn mx word.length).Pairwise (fun a b => a.2 ≤ b.2) ∧
    (ngramSpans mn mx word.length).Pairwise (fun a b => a.2 = b.2 → a.1 ≤ b.1) ∧
    ngramTokenize 2 3 ⟨.ngram 2 3, true, false, []⟩ "abcd".data =
      ["ab".data, "bc".data, "cd".data, "abc".data, "bcd".data] :=
  ⟨generate_ngrams_eq_spans mn mx word,
   fun s L => ngramSpans_mem mn mx word.length hmn s L,
   ngramSpans_len_ascending mn mx word.length,
   ngramSpans_start_ascending mn mx word.length,
   by rfl⟩

/-- Witness for C8 at `Ngram(2,3)` on the word `"abcd"`. -/
theorem claim8_witness :
    generate_ngrams 2 3 "abcd".data =
      (ngramSpans 2 3 4).map (fun p => ("abcd".data.drop p.1).take p.2) :=
  (claim8_ngram_window_enumeration 2 3 (by decide) (by decide) "abcd".data).1

end Tokenkit
